import Mathlib

/-!
# Verification of the 10-K financial-extraction core

Shallow embedding of the repository's two core subsystems:

* `utils.py` — `extract_10k_sections` / `get_section` / `clean_text`
  (section location and text sanitization), and
* `generate.py` — `get_document_financials` / `get_company_financials`
  (oracle-backed extraction with retry, stride sampling and a persisted
  per-ticker query cache keyed by `hashlib.md5(str(sorted(items)))`).

Texts are modelled as `List Char` over the ASCII fragment (the regex
character classes `\s`, `\w`, `\d` are embedded with their ASCII meaning).
The external generative model is a parameter: a function from the built
prompt and the attempt number to an outcome (transient failure, JSON parse
failure, or a parsed JSON object), matching how the Python code consumes
`model.generate_content` followed by `json.loads`.
-/

/-! ## Character classes (ASCII fragment of the Python regex classes)

`clean_text` uses the classes `[^\S\r\n]` (whitespace except CR/LF),
`\s`, `\w`, `\d`, `[\t ]` and the literal class `[\.\,\;\:\-\_]`.
Python line anchors: with `re.MULTILINE`, `^` matches at the string start
and immediately after each `'\n'`, and `$` matches at the string end and
immediately before each `'\n'`; `'\r'` is not an anchor boundary. -/

/-- `[^\S\r\n]` over ASCII: whitespace that is neither `'\r'` nor `'\n'`. -/
def isHSpace (c : Char) : Bool :=
  c == ' ' || c == '\t' || c == '\x0b' || c == '\x0c'

/-- `\s` over ASCII. -/
def isPySpace (c : Char) : Bool :=
  isHSpace c || c == '\n' || c == '\r'

/-- `\s` minus `'\n'`: the whitespace that can occur inside one line. -/
def isWsNoNl (c : Char) : Bool :=
  isHSpace c || c == '\r'

/-- `\d` over ASCII. -/
def isDigitC (c : Char) : Bool :=
  '0' ≤ c && c ≤ '9'

/-- `\w` over ASCII. -/
def isWordC (c : Char) : Bool :=
  ('a' ≤ c && c ≤ 'z') || ('A' ≤ c && c ≤ 'Z') || isDigitC c || c == '_'

/-- The literal class `[\.\,\;\:\-\_]` of the header/footer patterns. -/
def isPunct1 (c : Char) : Bool :=
  c == '.' || c == ',' || c == ';' || c == ':' || c == '-' || c == '_'

/-- The class `[\t ]` of the blank-line pattern. -/
def isTabSp (c : Char) : Bool :=
  c == '\t' || c == ' '

/-- ASCII lower-casing, for the `re.IGNORECASE` comparisons. -/
def lowerC (c : Char) : Char :=
  if 'A' ≤ c && c ≤ 'Z' then Char.ofNat (c.toNat + 32) else c

/-- Case-insensitive literal-prefix test (`re.IGNORECASE`). -/
def startsWithCI : List Char → List Char → Bool
  | [], _ => true
  | _ :: _, [] => false
  | p :: ps, c :: cs => lowerC p == lowerC c && startsWithCI ps cs

/-! ## Line decomposition

With `re.MULTILINE` the `^...$` patterns of `clean_text` are anchored to
the `'\n'`-line structure of the string, so the five `re.sub` passes are
embedded as transformations of the list of `'\n'`-separated line bodies.
`splitNl` and `joinNl` realize the bijection between a text and its
non-empty list of `'\n'`-free line bodies. -/

def splitNl : List Char → List (List Char)
  | [] => [[]]
  | c :: r =>
    if c == '\n' then [] :: splitNl r
    else
      match splitNl r with
      | [] => [[c]]
      | t :: ts => (c :: t) :: ts

def joinNl : List (List Char) → List Char
  | [] => []
  | [l] => l
  | l :: ls => l ++ '\n' :: joinNl ls

/-! ## The noise-line patterns of `clean_text`

Each `re.sub` pattern of `clean_text` is anchored `^...$`, so a line is
either replaced as a whole or untouched.  `linePartItem` embeds
`^[^\S\r\n]*(PART|ITEM)[^\S\r\n]*\w+[^\S\r\n]*[\.\,\;\:\-\_]*\s*$`:
since the trailing `\s*$` can always stop at the line's own terminator,
the pattern matches at a line start exactly when the prefix parses and
the remainder of the line is whitespace. -/

/-- `^[^\S\r\n]*(PART|ITEM)[^\S\r\n]*\w+[^\S\r\n]*[\.\,\;\:\-\_]*\s*$`. -/
def linePartItem (l : List Char) : Bool :=
  let r1 := l.dropWhile isHSpace
  (startsWithCI "part".toList r1 || startsWithCI "item".toList r1) &&
    (let r2 := (r1.drop 4).dropWhile isHSpace
     let w := r2.takeWhile isWordC
     !w.isEmpty &&
       (let r3 := (r2.dropWhile isWordC).dropWhile isHSpace
        let r4 := r3.dropWhile isPunct1
        r4.all isWsNoNl))

/-- `^[^\S\r\n]*\d+[^\S\r\n]*$` (page-number lines). -/
def linePageNum (l : List Char) : Bool :=
  let r1 := l.dropWhile isHSpace
  let d := r1.takeWhile isDigitC
  !d.isEmpty && ((r1.dropWhile isDigitC).dropWhile isHSpace).isEmpty

/-- The part after a `'|'` in `^.*\|[^\S\r\n]*\d+[^\S\r\n]*Form 10-K[^\S\r\n]*\|.*$`. -/
def formFooterTail (r : List Char) : Bool :=
  let r1 := r.dropWhile isHSpace
  let d := r1.takeWhile isDigitC
  !d.isEmpty &&
    (let r2 := (r1.dropWhile isDigitC).dropWhile isHSpace
     startsWithCI "form 10-k".toList r2 &&
       (let r3 := (r2.drop 9).dropWhile isHSpace
        match r3 with
        | '|' :: _ => true
        | _ => false))

/-- `^.*\|[^\S\r\n]*\d+[^\S\r\n]*Form 10-K[^\S\r\n]*\|.*$` ("X | n Form 10-K | Y"). -/
def lineFormFooter : List Char → Bool
  | [] => false
  | '|' :: r => formFooterTail r || lineFormFooter r
  | _ :: r => lineFormFooter r

/-- `^.*<PAGE>.*$` (page-break marker lines). -/
def linePageTag : List Char → Bool
  | [] => false
  | c :: r => startsWithCI "<page>".toList (c :: r) || linePageTag r

/-- A line that `^(?:[\t ]*(?:\r?\n|\r))+` can consume together with its
terminator: only tabs and spaces. -/
def lineBlank (l : List Char) : Bool :=
  l.all isTabSp

/-- A line consisting of `\s`-whitespace (no `'\n'` occurs inside a line
body); such lines can be swallowed by the trailing `\s*` of the
PART/ITEM pattern. -/
def lineWs (l : List Char) : Bool :=
  l.all isWsNoNl

/-! ## The five `re.sub` passes -/

/-- Pass 1, the PART/ITEM header/footer pattern.  When a line matches, the
greedy trailing `\s*$` additionally swallows every immediately following
whitespace-only line, and the match stops just before the next `'\n'`
(or at the end of the text), leaving a single empty line body behind.
The flag records that the scan is inside such a whitespace tail. -/
def passPartItemAux : Bool → List (List Char) → List (List Char)
  | _, [] => []
  | sw, l :: ls =>
    if sw && lineWs l then passPartItemAux true ls
    else if linePartItem l then [] :: passPartItemAux true ls
    else l :: passPartItemAux false ls

def passPartItem (ls : List (List Char)) : List (List Char) :=
  passPartItemAux false ls

/-- Passes 2–4 replace the body of each matching line by the empty body. -/
def passLine (p : List Char → Bool) (ls : List (List Char)) : List (List Char) :=
  ls.map fun l => if p l then [] else l

/-- The in-line repetitions of the blank-line pattern: consume a maximal
prefix of shape `([\t ]*\r)*`.  Such a prefix is the longest prefix over
`{tab, space, CR}` cut after its last `'\r'`; with no `'\r'` in that run,
nothing is consumed. -/
def stripReps (l : List Char) : List Char :=
  let run := l.takeWhile (fun c => isTabSp c || c == '\r')
  if run.contains '\r' then
    (run.reverse.takeWhile isTabSp).reverse ++
      l.dropWhile (fun c => isTabSp c || c == '\r')
  else l

/-- Pass 5, the blank-line pattern `^(?:[\t ]*(?:\r?\n|\r))+`: at every
line start, remove a maximal run of repetitions, each consuming `[\t ]*`
and then a terminator — a `'\r'` inside the current line, or the `'\n'`
ending it (when a following line exists).  After the in-line `'\r'`
repetitions, a line whose remainder is only tabs and spaces is consumed
together with its `'\n'` when one follows, and the scan continues at the
next line start; a fresh match attempt where a repetition just failed
performs the same repetition test, so the scan is a single recursion. -/
def passBlank : List (List Char) → List (List Char)
  | [] => []
  | l :: ls =>
    let r := stripReps l
    if lineBlank r then
      match ls with
      | [] => [r]
      | _ :: _ => passBlank ls
    else r :: passBlank ls

/-- `clean_text` (utils.py:67-103) on a present text: the five `re.sub`
passes in source order.  (`clean_text(None)` returns `""` at the call
sites in `extract_10k_sections`; the text passed here is the `str | None`
argument when it is present.) -/
def clean_text (x : List Char) : List Char :=
  joinNl (passBlank (passLine linePageTag (passLine lineFormFooter
    (passLine linePageNum (passPartItem (splitNl x))))))

/-! ## Section location: `get_section` (utils.py:46-65)

The regex engine itself is not embedded; `get_section` is modelled over
the two lists of match-start offsets that `reg_start.finditer` and
`reg_end.finditer` produce on `full_text`, which is all the function
inspects.  An out-of-range list index (Python `IndexError`) is the
`Except.error` outcome. -/

/-- Python slice `text[s:e]` for `s ≤ e`. -/
def pySlice (text : List Char) (s e : Nat) : List Char :=
  (text.drop s).take (e - s)

/-- utils.py:51-56 — for each start offset `s` in order, pair it with the
first end offset `e` (in the order found) such that `s < e`; starts with
no such end are skipped (`break` after the first append). -/
def buildRanges (starts ends : List Nat) : List (Nat × Nat) :=
  starts.filterMap fun s => (ends.find? fun e => s < e).map fun e => (s, e)

/-- One iteration of the arg-max loop of utils.py:59-63 on the
accumulator `(max_range, max_range_ind)` and an enumerated candidate. -/
def argmaxStep (acc : Nat × Nat) (ir : Nat × (Nat × Nat)) : Nat × Nat :=
  if ir.2.2 - ir.2.1 > acc.1 then (ir.2.2 - ir.2.1, ir.1) else acc

/-- utils.py:57-63 — the running arg-max loop over the candidate ranges:
`max_range` starts at `0`, `max_range_ind` at `0`, and a later candidate
replaces the current one only when its span is strictly larger. -/
def argmaxRange (rs : List (Nat × Nat)) : Nat :=
  (rs.enum.foldl argmaxStep (0, 0)).2

/-- `get_section` (utils.py:46-65): `Except.ok none` is Python `None`
("section not found"), `Except.ok (some t)` is the extracted span, and
`Except.error ()` is an uncaught `IndexError` (`ranges[max_range_ind]`
with `ranges == []`). -/
def get_section (full_text : List Char) (starts ends : List Nat) :
    Except Unit (Option (List Char)) :=
  if starts.length == 0 || ends.length == 0 then
    .ok none
  else
    let ranges := buildRanges starts ends
    match ranges.get? (argmaxRange ranges) with
    | none => .error ()
    | some r => .ok (some (pySlice full_text r.1 r.2))

/-! ## The query fingerprint (generate.py:110-112)

`hashlib.md5(str(sorted(items)).encode()).hexdigest()`.  MD5 is embedded
from RFC 1321 over byte lists (`Nat` entries `< 256`); `str` of a list of
strings and `sorted` are embedded on their ASCII fragment (`.encode()` is
UTF-8, which is the identity on ASCII code points). -/

/-- The 64 MD5 sine-table constants `K[i]` (RFC 1321). -/
def md5K : List Nat :=
  [0xd76aa478, 0xe8c7b756, 0x242070db, 0xc1bdceee,
   0xf57c0faf, 0x4787c62a, 0xa8304613, 0xfd469501,
   0x698098d8, 0x8b44f7af, 0xffff5bb1, 0x895cd7be,
   0x6b901122, 0xfd987193, 0xa679438e, 0x49b40821,
   0xf61e2562, 0xc040b340, 0x265e5a51, 0xe9b6c7aa,
   0xd62f105d, 0x02441453, 0xd8a1e681, 0xe7d3fbc8,
   0x21e1cde6, 0xc33707d6, 0xf4d50d87, 0x455a14ed,
   0xa9e3e905, 0xfcefa3f8, 0x676f02d9, 0x8d2a4c8a,
   0xfffa3942, 0x8771f681, 0x6d9d6122, 0xfde5380c,
   0xa4beea44, 0x4bdecfa9, 0xf6bb4b60, 0xbebfbc70,
   0x289b7ec6, 0xeaa127fa, 0xd4ef3085, 0x04881d05,
   0xd9d4d039, 0xe6db99e5, 0x1fa27cf8, 0xc4ac5665,
   0xf4292244, 0x432aff97, 0xab9423a7, 0xfc93a039,
   0x655b59c3, 0x8f0ccc92, 0xffeff47d, 0x85845dd1,
   0x6fa87e4f, 0xfe2ce6e0, 0xa3014314, 0x4e0811a1,
   0xf7537e82, 0xbd3af235, 0x2ad7d2bb, 0xeb86d391]

/-- The 64 MD5 per-round left-rotation amounts `s[i]`. -/
def md5S : List Nat :=
  [7, 12, 17, 22, 7, 12, 17, 22, 7, 12, 17, 22, 7, 12, 17, 22,
   5, 9, 14, 20, 5, 9, 14, 20, 5, 9, 14, 20, 5, 9, 14, 20,
   4, 11, 16, 23, 4, 11, 16, 23, 4, 11, 16, 23, 4, 11, 16, 23,
   6, 10, 15, 21, 6, 10, 15, 21, 6, 10, 15, 21, 6, 10, 15, 21]

/-- 32-bit left rotation. -/
def rotl32 (x s : Nat) : Nat :=
  ((x <<< s) ||| (x >>> (32 - s))) &&& 0xffffffff

/-- The MD5 round mixing function for round index `i`. -/
def md5F (i b c d : Nat) : Nat :=
  if i < 16 then (b &&& c) ||| ((b ^^^ 0xffffffff) &&& d)
  else if i < 32 then (d &&& b) ||| ((d ^^^ 0xffffffff) &&& c)
  else if i < 48 then b ^^^ c ^^^ d
  else c ^^^ (b ||| (d ^^^ 0xffffffff))

/-- The MD5 message-word index for round index `i`. -/
def md5G (i : Nat) : Nat :=
  if i < 16 then i
  else if i < 32 then (5 * i + 1) % 16
  else if i < 48 then (3 * i + 5) % 16
  else (7 * i) % 16

/-- One MD5 round on the state `(a, b, c, d)` with message words `M`. -/
def md5Round (M : List Nat) (st : Nat × Nat × Nat × Nat) (i : Nat) :
    Nat × Nat × Nat × Nat :=
  let f := (md5F i st.2.1 st.2.2.1 st.2.2.2 + st.1 + md5K.getD i 0 +
    M.getD (md5G i) 0) % 4294967296
  (st.2.2.2, (st.2.1 + rotl32 f (md5S.getD i 0)) % 4294967296,
   st.2.1, st.2.2.1)

/-- Process one 16-word MD5 chunk. -/
def md5Chunk (st : Nat × Nat × Nat × Nat) (M : List Nat) :
    Nat × Nat × Nat × Nat :=
  let e := (List.range 64).foldl (md5Round M) st
  ((st.1 + e.1) % 4294967296, (st.2.1 + e.2.1) % 4294967296,
   (st.2.2.1 + e.2.2.1) % 4294967296, (st.2.2.2 + e.2.2.2) % 4294967296)

/-- Little-endian bytes of a 32-bit word. -/
def wordBytesLE (w : Nat) : List Nat :=
  [w % 256, w / 256 % 256, w / 65536 % 256, w / 16777216 % 256]

/-- Little-endian 8-byte encoding of the 64-bit message bit length. -/
def lenBytesLE (n : Nat) : List Nat :=
  [n % 256, n / 2 ^ 8 % 256, n / 2 ^ 16 % 256, n / 2 ^ 24 % 256,
   n / 2 ^ 32 % 256, n / 2 ^ 40 % 256, n / 2 ^ 48 % 256, n / 2 ^ 56 % 256]

/-- MD5 padding: `0x80`, zeros to 56 mod 64, then the bit length. -/
def md5Pad (msg : List Nat) : List Nat :=
  msg ++ 0x80 :: List.replicate ((56 + 64 - (msg.length + 1) % 64) % 64) 0 ++
    lenBytesLE (8 * msg.length % 2 ^ 64)

/-- Group a byte list into 64-byte chunks. -/
def chunks64 (l : List Nat) : List (List Nat) :=
  if h : l = [] then [] else l.take 64 :: chunks64 (l.drop 64)
termination_by l.length
decreasing_by
  rw [List.length_drop]
  have := List.length_pos.mpr h
  omega

/-- Group a 64-byte chunk into 16 little-endian 32-bit words. -/
def toWordsLE : List Nat → List Nat
  | b0 :: b1 :: b2 :: b3 :: rest =>
    (b0 + 256 * b1 + 65536 * b2 + 16777216 * b3) :: toWordsLE rest
  | _ => []

/-- The 16-byte MD5 digest of a byte-list message. -/
def md5Bytes (msg : List Nat) : List Nat :=
  let st := (chunks64 (md5Pad msg)).foldl
    (fun st chunk => md5Chunk st (toWordsLE chunk))
    (0x67452301, 0xefcdab89, 0x98badcfe, 0x10325476)
  wordBytesLE st.1 ++ wordBytesLE st.2.1 ++ wordBytesLE st.2.2.1 ++
    wordBytesLE st.2.2.2

/-- Lower-case hex digit. -/
def hexChar (n : Nat) : Char :=
  "0123456789abcdef".toList.getD n '0'

/-- Two hex digits of a byte. -/
def byteHex (b : Nat) : List Char :=
  [hexChar (b / 16), hexChar (b % 16)]

/-- `hashlib.md5(...).hexdigest()` of a byte-list message. -/
def md5Hex (msg : List Nat) : String :=
  String.mk ((md5Bytes msg).map byteHex).flatten

/-- The apostrophe character (Python's default string-repr quote). -/
def squote : Char := Char.ofNat 39

/-- One character of Python `repr` of a string, with quote `q`
(ASCII fragment: non-printable bytes become `\xHH`). -/
def reprChar (q c : Char) : List Char :=
  if c == '\\' then ['\\', '\\']
  else if c == q then ['\\', q]
  else if c == '\n' then ['\\', 'n']
  else if c == '\r' then ['\\', 'r']
  else if c == '\t' then ['\\', 't']
  else if c.toNat < 32 || c.toNat ≥ 127 then '\\' :: 'x' :: byteHex (c.toNat % 256)
  else [c]

/-- Python `repr` of a string (ASCII fragment): single quotes, switching
to double quotes when the string contains `'` but no `"`. -/
def reprPy (s : String) : String :=
  let q := if s.toList.contains squote && !s.toList.contains '"' then '"' else squote
  String.mk (q :: (s.toList.map (reprChar q)).flatten ++ [q])

/-- Python string `<`: code-point lexicographic order. -/
def pyStrLt : List Char → List Char → Bool
  | [], [] => false
  | [], _ :: _ => true
  | _ :: _, [] => false
  | a :: as, b :: bs =>
    if a.toNat < b.toNat then true
    else if b.toNat < a.toNat then false
    else pyStrLt as bs

/-- Stable insertion of a string into an ascending list (by Python `<`,
i.e. code-point lexicographic order). -/
def insertAsc (x : String) : List String → List String
  | [] => [x]
  | y :: t => if pyStrLt x.toList y.toList then x :: y :: t else y :: insertAsc x t

/-- Python `sorted` on a list of strings. -/
def pySorted (l : List String) : List String :=
  l.foldr insertAsc []

/-- Python `str` of a list of strings: `repr` items joined by `", "`
inside brackets. -/
def pyStrList (items : List String) : String :=
  "[" ++ String.intercalate ", " (items.map reprPy) ++ "]"

/-- `.encode()` on the ASCII fragment: code points as bytes. -/
def strBytes (s : String) : List Nat :=
  s.toList.map Char.toNat

/-- generate.py:110-112 — `hashlib.md5(str(sorted(items)).encode()).hexdigest()`,
the cache key of an `items` query. -/
def items_query_hash (items : List String) : String :=
  md5Hex (strBytes (pyStrList (pySorted items)))

/-! ## ModelClient: `get_document_financials` (generate.py:25-75)

The external model is a parameter.  One invocation attempt either raises
a transient exception (`OOut.transient`, caught by the retry loop),
or returns a response; `json.loads` on the response text either fails
(`OOut.malformed`, raised outside the retry loop) or yields a JSON
object, carried as its field list in document order.  JSON values are
scoped to strings and integers, the shapes the prompt requests. -/

inductive JVal where
  | str (s : String)
  | num (n : Int)
deriving DecidableEq

/-- Outcome of one model invocation attempt, composed with `json.loads`. -/
inductive OOut where
  | transient
  | malformed
  | ok (obj : List (String × JVal))
deriving DecidableEq

/-- An oracle behaviour: the outcome of attempt number `n` on a prompt. -/
def Oracle := String → Nat → OOut

/-- The exceptions `get_document_financials` can propagate: transient
failure after exhausted retries, a `json.loads` failure, or an `int(...)`
coercion failure. -/
inductive GenErr where
  | transient
  | parse
  | coerce
deriving DecidableEq

/-- `Financials = Dict[str, int | None]` (generate.py:21), as a field list
in document order. -/
abbrev Financials := List (String × Option Int)

/-- generate.py:41 — `", ".join([f"{item} (`{item.replace(' ', '_')}`)"
for item in items])`. -/
def requestStr (items : List String) : String :=
  String.intercalate ", "
    (items.map fun item => item ++ " (`" ++ item.replace " " "_" ++ "`)")

/-- The fixed prompt text before the request string (generate.py:48-50,
including the indentation kept by the source's line continuations). -/
def promptPre : String :=
  "## Instructions \n                 Given the following financial document, in the relevant year,                 what is the company" ++
    String.singleton squote ++ "s: "

/-- The fixed prompt text between the request string and the document. -/
def promptMid : String :=
  "?                 Return each value in US dollars without commas. For example,                 if the document states a statistic as being $420,000 in millions                 of dollars, return 420000000000. If you cannot find adequate                 information for a particular requested value, reply " ++
    String.singleton squote ++ "N/A" ++ String.singleton squote ++
    " instead.                 \n\n ## Document \n "

/-- The full prompt of generate.py:47-57. -/
def buildPrompt (document : String) (items : List String) : String :=
  promptPre ++ requestStr items ++ promptMid ++ document

/-- A nonempty all-digit run and its value. -/
def digitsVal (ds : List Char) : Option Nat :=
  if ds.isEmpty || !ds.all isDigitC then none
  else some (ds.foldl (fun a c => 10 * a + (c.toNat - 48)) 0)

/-- Python `int(s)` for a decimal string: surrounding whitespace is
stripped, an optional sign precedes the digits.  (Digit-grouping
underscores are not modelled.)  `none` is a `ValueError`. -/
def pyInt (s : String) : Option Int :=
  let t := ((s.toList.dropWhile isPySpace).reverse.dropWhile isPySpace).reverse
  match t with
  | '-' :: ds => (digitsVal ds).map (fun n => -(n : Int))
  | '+' :: ds => (digitsVal ds).map (fun n => (n : Int))
  | ds => (digitsVal ds).map (fun n => (n : Int))

/-- generate.py:73 — `int(json_res[key]) if json_res[key] != "N/A" else
None`; `none` is an uncaught `ValueError` from `int`. -/
def coerceVal : JVal → Option (Option Int)
  | .str s => if s = "N/A" then some none else (pyInt s).map some
  | .num n => some (some n)

/-- generate.py:72-73 — normalize every value of the parsed object,
propagating the first coercion failure. -/
def normalizeObj : List (String × JVal) → Except GenErr Financials
  | [] => .ok []
  | (k, v) :: rest =>
    match coerceVal v with
    | none => .error .coerce
    | some ov => (normalizeObj rest).map (fun r => (k, ov) :: r)

/-- The retry loop of generate.py:43-64: attempts stop at the first
non-transient outcome; a third consecutive transient failure is
re-raised (`fails > 2`), so `OOut.transient` here means exhaustion. -/
def firstResp (o : Nat → OOut) : OOut :=
  match o 0 with
  | .transient =>
    match o 1 with
    | .transient => o 2
    | r => r
  | r => r

/-- How many invocation attempts the retry loop makes. -/
def attemptsMade (o : Nat → OOut) : Nat :=
  if o 0 != OOut.transient then 1
  else if o 1 != OOut.transient then 2
  else 3

/-- `get_document_financials` (generate.py:25-75): build the prompt,
invoke the model with bounded retry, parse and normalize. -/
def get_document_financials (oracle : Oracle) (document : String)
    (items : List String) : Except GenErr Financials :=
  match firstResp (oracle (buildPrompt document items)) with
  | .transient => .error .transient
  | .malformed => .error .parse
  | .ok obj => normalizeObj obj

/-- The number of model invocations one `get_document_financials` call
makes. -/
def gdfCalls (oracle : Oracle) (document : String) (items : List String) : Nat :=
  attemptsMade (oracle (buildPrompt document items))

/-! ## ExtractionOrchestrator: `get_company_financials` (generate.py:78-138)

`CompanyFilingTexts.filings` is the year→sections dict in insertion
order (Python dicts preserve it).  The persisted pickle is `disk`
(`none` = the file does not exist); the run returns the result together
with the written store, the total model-invocation count, and the years
the stride-2 loop visited.  The `st.cache_data` in-process memo and the
progress bar are presentation-layer effects outside this model. -/

abbrev FilingTextMap := List (String × String)

abbrev CorpusFinancials := List (Nat × Financials)

abbrev CacheStore := List (String × CorpusFinancials)

structure CompanyFilingTexts where
  ticker : String
  filings : List (Nat × FilingTextMap)

/-- The index list of `range(0, n, 2)` (generate.py:120). -/
def stride2 (n : Nat) : List Nat :=
  (List.range ((n + 1) / 2)).map (fun k => 2 * k)

/-- Python dict assignment `d[k] = v` on an association list. -/
def dictSet (store : CacheStore) (k : String) (v : CorpusFinancials) :
    CacheStore :=
  if store.any (fun kv => kv.1 == k) then
    store.map (fun kv => if kv.1 == k then (k, v) else kv)
  else
    store ++ [(k, v)]

/-- generate.py:121-124 — `year = years[i]`, `text = filings[year]`,
`text['financials']`.  A missing `'financials'` key raises inside the
`try`, so it yields `none` (the year is skipped); the two outer lookups
cannot fail because `years` lists the dict's own keys. -/
def loopDoc (pairs : List (Nat × FilingTextMap)) (i : Nat) :
    Option (Nat × String) :=
  match (pairs.map Prod.fst).get? i with
  | none => none
  | some year =>
    match List.lookup year pairs with
    | none => none
    | some ftm =>
      match List.lookup "financials" ftm with
      | none => none
      | some txt => some (year, txt)

/-- The body of generate.py:120-128 for one index: a successful
extraction appends `(year, fin)` to `res`; a raised error leaves `res`
unchanged.  The second component counts the model invocations made. -/
def loopStep (pairs : List (Nat × FilingTextMap)) (items : List String)
    (oracle : Oracle) (acc : CorpusFinancials × Nat) (i : Nat) :
    CorpusFinancials × Nat :=
  match loopDoc pairs i with
  | none => acc
  | some (year, txt) =>
    match get_document_financials oracle txt items with
    | .ok fin => (acc.1 ++ [(year, fin)], acc.2 + gdfCalls oracle txt items)
    | .error _ => (acc.1, acc.2 + gdfCalls oracle txt items)

/-- The extraction loop of generate.py:116-128: every second year in
insertion order; a year whose extraction raises is skipped.  Also counts
the model invocations made. -/
def extractLoop (pairs : List (Nat × FilingTextMap)) (items : List String)
    (oracle : Oracle) : CorpusFinancials × Nat :=
  (stride2 pairs.length).foldl (loopStep pairs items oracle) ([], 0)

/-- What one loop index contributes to `res`: `none` when the year is
skipped. -/
def loopRes (pairs : List (Nat × FilingTextMap)) (items : List String)
    (oracle : Oracle) (i : Nat) : Option (Nat × Financials) :=
  match loopDoc pairs i with
  | none => none
  | some (year, txt) =>
    match get_document_financials oracle txt items with
    | .ok fin => some (year, fin)
    | .error _ => none

/-- The model invocations one loop index makes. -/
def loopCost (pairs : List (Nat × FilingTextMap)) (items : List String)
    (oracle : Oracle) (i : Nat) : Nat :=
  match loopDoc pairs i with
  | none => 0
  | some (_, txt) => gdfCalls oracle txt items

/-- The years the stride-2 loop visits, in visit order. -/
def attemptedYears (pairs : List (Nat × FilingTextMap)) : List Nat :=
  (stride2 pairs.length).filterMap (fun i => (pairs.map Prod.fst).get? i)

instance : DecidableEq Financials := inferInstance

instance : DecidableEq CorpusFinancials := inferInstance

instance : DecidableEq CacheStore := inferInstance

instance : DecidableEq (Option CacheStore) := inferInstance

/-- The observable outcome of one `get_company_financials` run. -/
structure RunResult where
  result : CorpusFinancials
  newDisk : Option CacheStore
  oracleCalls : Nat
  attempted : List Nat
deriving DecidableEq

/-- `get_company_financials` (generate.py:78-138): load the persisted
store when `cache` is set and the file exists, return a hit immediately
(no write), otherwise run the loop, store the result under the items
fingerprint and write the store back. -/
def get_company_financials (filings : CompanyFilingTexts)
    (items : List String) (cache : Bool) (disk : Option CacheStore)
    (oracle : Oracle) : RunResult :=
  let save_dict : CacheStore := if cache then disk.getD [] else []
  let h := items_query_hash items
  match List.lookup h save_dict with
  | some v => ⟨v, disk, 0, []⟩
  | none =>
    let rc := extractLoop filings.filings items oracle
    ⟨rc.1, some (dictSet save_dict h rc.1), rc.2,
      attemptedYears filings.filings⟩

/-- Modelled from the spec: the key normalization §4.4 claims for the
returned mapping — "the normalized form of the requested item names
(space→underscore, lowercase)".  The source's `request_str`
(generate.py:41) replaces spaces but never lower-cases, and the returned
keys are whatever the oracle sent; this definition exists to compare the
two. -/
def specNormalizedKey (item : String) : String :=
  String.mk (item.toList.map fun c => if c == ' ' then '_' else lowerC c)

/-! ## Auxiliary definitions used by the claim statements and witnesses -/

/-- A byte list as a base-256 numeral (low byte first). -/
def bytesToNat : List Nat → Nat
  | [] => 0
  | b :: bs => b + 256 * bytesToNat bs

/-- The item list `[("a" * n)]`, a family of pairwise-distinct queries. -/
def famItems (n : Nat) : List String :=
  [String.mk (List.replicate n 'a')]

/-- The fingerprint digest of the query `famItems n`, as a number. -/
def famDigest (n : Nat) : Nat :=
  bytesToNat (md5Bytes (strBytes (pyStrList (pySorted (famItems n)))))

/-- Every other element of a list, starting from the first: the spec-side
description of stride-2 sampling. -/
def everyOther {α : Type} : List α → List α
  | [] => []
  | [a] => [a]
  | a :: _ :: t => a :: everyOther t

/-- The corpus of the C7 witness: three years with distinct documents. -/
def c7Corpus : CompanyFilingTexts :=
  ⟨"T", [(2018, [("financials", "a")]), (2019, [("financials", "b")]),
    (2020, [("financials", "c")])]⟩

/-- The oracle of the C7 witness: always transient on year 2020's
prompt, immediately successful elsewhere. -/
def c7Oracle : Oracle := fun p _ =>
  if p = buildPrompt "c" ["a"] then OOut.transient else OOut.ok []

/-- A line body free of the characters that the embedding treats
specially: the separator `'\n'` never occurs inside a body, and without
`'\r'`, `'\x0B'`, `'\x0C'` the whitespace classes `\s` (minus `'\n'`)
and `[\t ]` agree on the line. -/
def LineOk (l : List Char) : Bool :=
  l.all fun c => !(c == '\n' || c == '\r' || c == '\x0B' || c == '\x0C')

/-- A line survives `clean_text` iff it matches none of the four noise
patterns and is not blank. -/
def keepLine (l : List Char) : Bool :=
  !(linePartItem l || linePageNum l || lineFormFooter l ||
    linePageTag l || lineBlank l)

/-- A line list rendered as a newline-terminated text. -/
def termJoin (L : List (List Char)) : List Char :=
  (L.map fun l => l ++ ['\n']).flatten

/-- "No blank line except possibly the last": the shape of pass-5 output. -/
def NBT : List (List Char) → Prop
  | [] => True
  | [_] => True
  | l :: l2 :: ls => lineBlank l = false ∧ NBT (l2 :: ls)

/-- Passes 2-4 composed, as applied by `clean_text`. -/
def passLines3 (L : List (List Char)) : List (List Char) :=
  passLine linePageTag (passLine lineFormFooter (passLine linePageNum L))

/-! # Claims

Each claim of the specification review is settled by one theorem below,
supported by general lemmas about the definitions above. -/

/-! ## C4 — `get_section` on empty candidate-range sets -/

/-- C4: the claim states that for every input `get_section` terminates
normally and, when the start- and end-marker sets are non-empty but no
end offset lies strictly after any start offset, yields the empty string.
The code instead indexes `ranges[max_range_ind]` with `ranges == []` and
raises `IndexError`: on the text
`"item 9. changes blah item 8. financial"` the financials start pattern
matches only at offset 21 and the end pattern only at offset 0, and the
call raises. -/
theorem c4_empty_ranges_raise :
    get_section "item 9. changes blah item 8. financial".toList [21] [0] =
      .error () := by
  rfl

/-! ## C5 — where `clean_text` removes blank lines (counterexample part)

`re.sub(r"^(?:[\t ]*(?:\r?\n|\r))+", "", text, flags=re.MULTILINE)`
(utils.py:102) anchors at every line start, not only at the start of the
text. -/

/-- C5 counterexample: the claim states that an all-whitespace line lying
between two non-blank content lines is preserved.  On `"a\n\nb"` the
interior blank line is removed: sanitization yields `"a\nb"`. -/
theorem c5_counterexample :
    clean_text "a\n\nb".toList = "a\nb".toList ∧
      clean_text "a\n\nb".toList ≠ "a\n\nb".toList := by
  constructor
  · rfl
  · decide

/-! ## C10 — idempotence of `clean_text` (counterexample part)

The blank-line pass runs last and is the only pass that can consume a
bare `'\r'`; removing it can expose a line that the earlier passes would
have removed, so a second sanitization can differ. -/

/-- C10 counterexample: on `"\r1"` the first sanitization yields `"1"`
(the page-number pass saw `"\r1"`, which it does not match), and the
second sanitization removes `"1"` entirely: `clean_text` is not
idempotent. -/
theorem c10_counterexample :
    clean_text "\r1".toList = "1".toList ∧
      clean_text (clean_text "\r1".toList) ≠ clean_text "\r1".toList := by
  constructor
  · rfl
  · decide

/-! ## C2 — keys and values of a successful extraction

generate.py:69-75 returns `json.loads(gen_res.text)` with its values
normalized in place: the key set is whatever the oracle sent, and the
prompt (generate.py:41) requests keys `item.replace(' ', '_')` without
lower-casing. -/

/-- A successful `normalizeObj` keeps the parsed object's keys in order
and relates each value to its normalization. -/
theorem normalizeObj_ok {obj : List (String × JVal)} {fin : Financials}
    (h : normalizeObj obj = .ok fin) :
    fin.map Prod.fst = obj.map Prod.fst ∧
      List.Forall₂ (fun (kv : String × JVal) (kf : String × Option Int) =>
        kf.1 = kv.1 ∧ coerceVal kv.2 = some kf.2) obj fin := by
  induction obj generalizing fin with
  | nil =>
    simp only [normalizeObj] at h
    cases h
    simp
  | cons kv rest ih =>
    obtain ⟨k, v⟩ := kv
    simp only [normalizeObj] at h
    cases hc : coerceVal v with
    | none => rw [hc] at h; cases h
    | some ov =>
      rw [hc] at h
      cases hr : normalizeObj rest with
      | error e => rw [hr] at h; cases h
      | ok r =>
        rw [hr] at h
        simp only [Except.map] at h
        cases h
        obtain ⟨h1, h2⟩ := ih hr
        refine ⟨by simp [h1], ?_⟩
        exact List.Forall₂.cons ⟨rfl, hc⟩ h2

/-- C2 counterexample: the claim states the returned key set is the
lower-cased, underscored form of the requested item names.  For the
request `["Net Sales"]` the prompt asks for the key `"Net_Sales"`
(no lower-casing), and an oracle that answers exactly under that key
produces a mapping whose only key is `"Net_Sales"`, not the claimed
`"net_sales"`; the code never checks returned keys against requested
ones. -/
theorem c2_counterexample :
    get_document_financials (fun _ _ => OOut.ok [("Net_Sales", JVal.str "5")])
        "doc" ["Net Sales"] = .ok [("Net_Sales", some 5)] ∧
      specNormalizedKey "Net Sales" = "net_sales" ∧
      ("Net_Sales" : String) ≠ "net_sales" :=
  ⟨rfl, rfl, by decide⟩

/-- C2 amended: when the oracle invocation succeeds with a parsed object
and `get_document_financials` returns successfully, the returned
mapping's key list is exactly the oracle response's key list (the
requested items are not enforced, and no lower-casing happens), and each
value is the normalization of the response value: the `"N/A"` sentinel
becomes missing and every other value is coerced to an integer. -/
theorem c2_theorem (oracle : Oracle) (document : String)
    (items : List String) (obj : List (String × JVal)) (fin : Financials)
    (hobj : firstResp (oracle (buildPrompt document items)) = OOut.ok obj)
    (hok : get_document_financials oracle document items = .ok fin) :
    fin.map Prod.fst = obj.map Prod.fst ∧
      List.Forall₂ (fun (kv : String × JVal) (kf : String × Option Int) =>
        kf.1 = kv.1 ∧ coerceVal kv.2 = some kf.2) obj fin := by
  apply normalizeObj_ok
  unfold get_document_financials at hok
  rw [hobj] at hok
  exact hok

/-- Witness for C2 amended at a concrete oracle and request. -/
theorem c2_theorem_witness :
    ([("Net_Sales", (some 5 : Option Int))]).map Prod.fst =
        ([("Net_Sales", JVal.str "5")]).map Prod.fst ∧
      List.Forall₂ (fun (kv : String × JVal) (kf : String × Option Int) =>
        kf.1 = kv.1 ∧ coerceVal kv.2 = some kf.2)
        [("Net_Sales", JVal.str "5")] [("Net_Sales", some 5)] :=
  c2_theorem (fun _ _ => OOut.ok [("Net_Sales", JVal.str "5")]) "doc"
    ["Net Sales"] _ _ rfl rfl

/-! ## C6 — candidate pairing and widest-span selection -/

/-- The arg-max fold invariant: starting from `(m, i)` at enumeration
offset `k`, the fold bounds every span, never decreases the maximum, and
either returns the start accumulator unchanged or the first candidate of
maximal span, with every earlier candidate strictly smaller. -/
theorem argmax_go_spec (rs : List (Nat × Nat)) (k m i : Nat) :
    (∀ p ∈ rs, p.2 - p.1 ≤ ((rs.enumFrom k).foldl argmaxStep (m, i)).1) ∧
      m ≤ ((rs.enumFrom k).foldl argmaxStep (m, i)).1 ∧
      ((rs.enumFrom k).foldl argmaxStep (m, i) = (m, i) ∨
        ∃ pre w suf, rs = pre ++ w :: suf ∧
          ((rs.enumFrom k).foldl argmaxStep (m, i)).1 = w.2 - w.1 ∧
          ((rs.enumFrom k).foldl argmaxStep (m, i)).2 = k + pre.length ∧
          m < w.2 - w.1 ∧
          ∀ p ∈ pre, p.2 - p.1 < w.2 - w.1) := by
  induction rs generalizing k m i with
  | nil => simp [List.enumFrom]
  | cons x t ih =>
    have hstep : (x :: t).enumFrom k = (k, x) :: t.enumFrom (k + 1) := rfl
    rw [hstep, List.foldl_cons]
    by_cases hd : x.2 - x.1 > m
    · have hs : argmaxStep (m, i) (k, x) = (x.2 - x.1, k) := by
        simp [argmaxStep, hd]
      rw [hs]
      obtain ⟨ih1, ih2, ih3⟩ := ih (k + 1) (x.2 - x.1) k
      refine ⟨?_, ?_, ?_⟩
      · intro p hp
        cases hp with
        | head => exact ih2
        | tail _ hp => exact ih1 p hp
      · exact le_trans (le_of_lt hd) ih2
      · rcases ih3 with h3 | ⟨pre, w, suf, hdec, h1, h2, h3, h4⟩
        · right
          exact ⟨[], x, t, by simp, by rw [h3], by rw [h3]; simp, hd, by simp⟩
        · right
          refine ⟨x :: pre, w, suf, by simp [hdec], h1, by rw [h2]; simp; omega,
            lt_trans hd h3, ?_⟩
          intro p hp
          cases hp with
          | head => exact h3
          | tail _ hp => exact h4 p hp
    · have hs : argmaxStep (m, i) (k, x) = (m, i) := by
        simp [argmaxStep]; omega
      rw [hs]
      obtain ⟨ih1, ih2, ih3⟩ := ih (k + 1) m i
      refine ⟨?_, ih2, ?_⟩
      · intro p hp
        cases hp with
        | head => exact le_trans (Nat.le_of_not_lt hd) ih2
        | tail _ hp => exact ih1 p hp
      · rcases ih3 with h3 | ⟨pre, w, suf, hdec, h1, h2, h3, h4⟩
        · left; exact h3
        · right
          refine ⟨x :: pre, w, suf, by simp [hdec], h1, by rw [h2]; simp; omega,
            h3, ?_⟩
          intro p hp
          cases hp with
          | head => exact lt_of_le_of_lt (Nat.le_of_not_lt hd) h3
          | tail _ hp => exact h4 p hp

/-- A successful `find?` splits its list at the first satisfying element. -/
theorem find?_decomp {α : Type} (p : α → Bool) (l : List α) (a : α)
    (h : l.find? p = some a) :
    ∃ pre suf, l = pre ++ a :: suf ∧ ∀ x ∈ pre, p x = false := by
  induction l with
  | nil => cases h
  | cons x t ih =>
    rw [List.find?_cons] at h
    cases hp : p x with
    | true =>
      rw [hp] at h
      cases h
      exact ⟨[], t, rfl, by simp⟩
    | false =>
      rw [hp] at h
      obtain ⟨pre, suf, hd, hpre⟩ := ih h
      refine ⟨x :: pre, suf, by simp [hd], ?_⟩
      intro y hy
      cases hy with
      | head => exact hp
      | tail _ hy => exact hpre y hy

/-- The starts that survive the pairing of utils.py:52-56 are exactly
those with some later end offset, in order. -/
theorem buildRanges_map_fst (starts ends : List Nat) :
    (buildRanges starts ends).map Prod.fst =
      starts.filter fun s => ends.any fun e => decide (s < e) := by
  induction starts with
  | nil => rfl
  | cons s t ih =>
    simp only [buildRanges, List.filterMap_cons] at ih ⊢
    cases hf : ends.find? fun e => decide (s < e) with
    | none =>
      have hany : (ends.any fun e => decide (s < e)) = false := by
        rw [List.find?_eq_none] at hf
        simp only [List.any_eq_false]
        intro e he
        simpa using hf e he
      simp [hany, ih]
    | some e => simp [ih, List.any_eq_true.mpr
        ⟨e, List.mem_of_find?_eq_some hf, List.find?_some hf⟩]

/-- Every candidate range pairs a start with the first end offset lying
strictly after it. -/
theorem buildRanges_mem (starts ends : List Nat) (p : Nat × Nat)
    (hp : p ∈ buildRanges starts ends) :
    p.1 ∈ starts ∧ p.1 < p.2 ∧
      ∃ pre suf, ends = pre ++ p.2 :: suf ∧ ∀ e ∈ pre, ¬p.1 < e := by
  simp only [buildRanges, List.mem_filterMap] at hp
  obtain ⟨s, hs, hfs⟩ := hp
  cases hf : ends.find? fun e => decide (s < e) with
  | none => rw [hf] at hfs; cases hfs
  | some e =>
    rw [hf] at hfs
    simp only [Option.map] at hfs
    cases hfs
    refine ⟨hs, by simpa using List.find?_some hf, ?_⟩
    obtain ⟨pre, suf, hd, hpre⟩ := find?_decomp _ _ _ hf
    exact ⟨pre, suf, hd, fun x hx => by simpa using hpre x hx⟩

/-- `buildRanges` needs both marker lists non-empty to produce anything. -/
theorem buildRanges_ne_nil_ne (starts ends : List Nat)
    (h : buildRanges starts ends ≠ []) : starts ≠ [] ∧ ends ≠ [] := by
  constructor
  · rintro rfl; exact h rfl
  · rintro rfl
    apply h
    simp only [buildRanges]
    rw [List.filterMap_eq_nil_iff]
    intro a _
    rfl

/-- The element at the length of a prefix. -/
theorem get?_append_length {α : Type} (pre suf : List α) (w : α) :
    (pre ++ w :: suf).get? pre.length = some w := by
  induction pre with
  | nil => rfl
  | cons x t ih => simpa using ih

/-- C6: with at least one candidate range, `get_section` pairs each start
offset, in order, with the first end offset strictly after it (starts
with none are dropped), and returns the slice `full_text[s:e]` of the
candidate with the largest span `e - s`, the first such candidate winning
ties: the returned winner bounds every candidate's span, and every
candidate before it has a strictly smaller span. -/
theorem c6_theorem (full_text : List Char) (starts ends : List Nat)
    (hne : buildRanges starts ends ≠ []) :
    ((buildRanges starts ends).map Prod.fst =
        starts.filter fun s => ends.any fun e => decide (s < e)) ∧
      (∀ p ∈ buildRanges starts ends,
        p.1 ∈ starts ∧ p.1 < p.2 ∧
          ∃ pre suf, ends = pre ++ p.2 :: suf ∧ ∀ e ∈ pre, ¬p.1 < e) ∧
      ∃ pre w suf, buildRanges starts ends = pre ++ w :: suf ∧
        argmaxRange (buildRanges starts ends) = pre.length ∧
        (∀ p ∈ buildRanges starts ends, p.2 - p.1 ≤ w.2 - w.1) ∧
        (∀ p ∈ pre, p.2 - p.1 < w.2 - w.1) ∧
        get_section full_text starts ends =
          .ok (some (pySlice full_text w.1 w.2)) := by
  refine ⟨buildRanges_map_fst starts ends, buildRanges_mem starts ends, ?_⟩
  obtain ⟨g1, _, g3⟩ := argmax_go_spec (buildRanges starts ends) 0 0 0
  have henum : (buildRanges starts ends).enum =
      (buildRanges starts ends).enumFrom 0 := rfl
  rcases g3 with g3 | ⟨pre, w, suf, hdec, h1, h2, _, h4⟩
  · exfalso
    obtain ⟨p, hpmem⟩ := List.exists_mem_of_ne_nil _ hne
    have hlt : p.1 < p.2 := (buildRanges_mem starts ends p hpmem).2.1
    have := g1 p hpmem
    rw [g3] at this
    omega
  · have hidx : argmaxRange (buildRanges starts ends) = pre.length := by
      rw [argmaxRange, henum, h2]
      exact Nat.zero_add _
    refine ⟨pre, w, suf, hdec, hidx, ?_, ?_, ?_⟩
    · intro p hp
      have := g1 p hp
      rw [h1] at this
      exact this
    · intro p hp
      exact h4 p hp
    · obtain ⟨hs, he⟩ := buildRanges_ne_nil_ne starts ends hne
      unfold get_section
      have hcond : (starts.length == 0 || ends.length == 0) = false := by
        simp [List.length_eq_zero, hs, he]
      rw [hcond]
      simp only [Bool.false_eq_true, if_false]
      rw [hidx, hdec, get?_append_length]

/-- Witness for C6 at `starts = [1, 3]`, `ends = [2, 9]` on
`"abcdefghij"`: the candidates are `(1, 2)` and `(3, 9)` and the second,
wider one wins. -/
theorem c6_theorem_witness :
    ((buildRanges [1, 3] [2, 9]).map Prod.fst =
        [1, 3].filter fun s => [2, 9].any fun e => decide (s < e)) ∧
      (∀ p ∈ buildRanges [1, 3] [2, 9],
        p.1 ∈ [1, 3] ∧ p.1 < p.2 ∧
          ∃ pre suf, [2, 9] = pre ++ p.2 :: suf ∧ ∀ e ∈ pre, ¬p.1 < e) ∧
      ∃ pre w suf, buildRanges [1, 3] [2, 9] = pre ++ w :: suf ∧
        argmaxRange (buildRanges [1, 3] [2, 9]) = pre.length ∧
        (∀ p ∈ buildRanges [1, 3] [2, 9], p.2 - p.1 ≤ w.2 - w.1) ∧
        (∀ p ∈ pre, p.2 - p.1 < w.2 - w.1) ∧
        get_section "abcdefghij".toList [1, 3] [2, 9] =
          .ok (some (pySlice "abcdefghij".toList w.1 w.2)) :=
  c6_theorem "abcdefghij".toList [1, 3] [2, 9] (by decide)

/-! ## C8 — the query fingerprint

`items_query_hash` is deterministic in the sorted item list, but it is a
128-bit digest of an unbounded input space, so digest equality cannot
characterize sorted-list equality: collisions exist by counting. -/

/-- Little-endian word bytes are bytes. -/
theorem wordBytesLE_bound (w : Nat) : ∀ b ∈ wordBytesLE w, b < 256 := by
  intro b hb
  simp only [wordBytesLE, List.mem_cons, List.not_mem_nil, or_false] at hb
  rcases hb with rfl | rfl | rfl | rfl <;> exact Nat.mod_lt _ (by omega)

/-- The MD5 digest is 16 bytes. -/
theorem md5Bytes_length (msg : List Nat) : (md5Bytes msg).length = 16 := by
  simp [md5Bytes, wordBytesLE]

/-- Every entry of the MD5 digest is a byte. -/
theorem md5Bytes_bound (msg : List Nat) : ∀ b ∈ md5Bytes msg, b < 256 := by
  intro b hb
  simp only [md5Bytes, List.mem_append] at hb
  rcases hb with ((hb | hb) | hb) | hb <;> exact wordBytesLE_bound _ b hb

/-- A byte list denotes a numeral below `256 ^ length`. -/
theorem bytesToNat_lt (bs : List Nat) (h : ∀ b ∈ bs, b < 256) :
    bytesToNat bs < 256 ^ bs.length := by
  induction bs with
  | nil => simp [bytesToNat]
  | cons b t ih =>
    have hb : b < 256 := h b (by simp)
    have ht := ih fun x hx => h x (by simp [hx])
    simp only [bytesToNat, List.length_cons, pow_succ]
    omega

/-- Base-256 numerals of equal-length byte lists are injective. -/
theorem bytesToNat_inj : ∀ (bs cs : List Nat), bs.length = cs.length →
    (∀ b ∈ bs, b < 256) → (∀ c ∈ cs, c < 256) →
    bytesToNat bs = bytesToNat cs → bs = cs
  | [], [], _, _, _, _ => rfl
  | b :: bs, c :: cs, hlen, hb, hc, heq => by
    simp only [bytesToNat] at heq
    have hb1 : b < 256 := hb b (by simp)
    have hc1 : c < 256 := hc c (by simp)
    have hbc : b = c ∧ bytesToNat bs = bytesToNat cs := by omega
    have := bytesToNat_inj bs cs (by simpa using hlen)
      (fun x hx => hb x (by simp [hx])) (fun x hx => hc x (by simp [hx]))
      hbc.2
    rw [hbc.1, this]

/-- `sorted` of a one-item query is itself. -/
theorem pySorted_singleton (x : String) : pySorted [x] = [x] := rfl

/-- Every family digest is below `256 ^ 16`. -/
theorem famDigest_lt (n : Nat) : famDigest n < 256 ^ 16 := by
  have := bytesToNat_lt _ (md5Bytes_bound
    (strBytes (pyStrList (pySorted (famItems n)))))
  rwa [md5Bytes_length] at this

/-- C8 counterexample: the claim's invariant
`fingerprint(A) == fingerprint(B) iff sorted(A) == sorted(B)` is false as
a universal statement: the fingerprint is a 16-byte MD5 digest, so over
the infinitely many single-item queries `["a"]`, `["aa"]`, ... two
distinct queries must collide by counting, while their sorted forms
differ. -/
theorem c8_counterexample :
    ¬ ∀ A B : List String,
        items_query_hash A = items_query_hash B ↔ pySorted A = pySorted B := by
  intro h
  obtain ⟨n, m, hnm, heq⟩ := Finite.exists_ne_map_eq_of_infinite
    (fun n : Nat => (⟨famDigest n, famDigest_lt n⟩ : Fin (256 ^ 16)))
  apply hnm
  have hval : bytesToNat (md5Bytes (strBytes (pyStrList (pySorted (famItems n))))) =
      bytesToNat (md5Bytes (strBytes (pyStrList (pySorted (famItems m))))) := by
    have := congrArg Fin.val heq
    simpa [famDigest] using this
  have hbytes := bytesToNat_inj _ _
    (by rw [md5Bytes_length, md5Bytes_length])
    (md5Bytes_bound _) (md5Bytes_bound _) hval
  have hhex : items_query_hash (famItems n) = items_query_hash (famItems m) := by
    unfold items_query_hash md5Hex
    rw [hbytes]
  have hsort := (h _ _).mp hhex
  simp only [famItems, pySorted_singleton] at hsort
  have hstr : String.mk (List.replicate n 'a') =
      String.mk (List.replicate m 'a') := by
    injection hsort
  have hdata : List.replicate n 'a' = List.replicate m 'a' := by
    injection hstr
  have := congrArg List.length hdata
  simpa using this

/-- C8 amended: the fingerprint is a fixed deterministic digest of the
sorted item list — `sorted(A) == sorted(B)` implies
`fingerprint(A) == fingerprint(B)` (so item order never matters, and the
value is stable across process runs); the converse direction holds only
up to MD5 collisions, which exist by counting. -/
theorem c8_theorem (A B : List String) (h : pySorted A = pySorted B) :
    items_query_hash A = items_query_hash B := by
  unfold items_query_hash
  rw [h]

/-- Witness for C8 amended: `fingerprint(["a","b"]) == fingerprint(["b","a"])`. -/
theorem c8_theorem_witness :
    items_query_hash ["a", "b"] = items_query_hash ["b", "a"] :=
  c8_theorem ["a", "b"] ["b", "a"] (by decide)

/-! ## C3 / C9 — the persisted query cache -/

/-- A cache hit returns the stored value without writing. -/
theorem gcf_hit (filings : CompanyFilingTexts) (items : List String)
    (cache : Bool) (disk : Option CacheStore) (oracle : Oracle)
    (w : CorpusFinancials)
    (hh : List.lookup (items_query_hash items)
      (if cache then disk.getD [] else []) = some w) :
    get_company_financials filings items cache disk oracle =
      ⟨w, disk, 0, []⟩ := by
  unfold get_company_financials
  dsimp only
  rw [hh]

/-- A cache miss runs the loop and writes the updated store. -/
theorem gcf_miss (filings : CompanyFilingTexts) (items : List String)
    (cache : Bool) (disk : Option CacheStore) (oracle : Oracle)
    (hh : List.lookup (items_query_hash items)
      (if cache then disk.getD [] else []) = none) :
    get_company_financials filings items cache disk oracle =
      ⟨(extractLoop filings.filings items oracle).1,
        some (dictSet (if cache then disk.getD [] else [])
          (items_query_hash items)
          (extractLoop filings.filings items oracle).1),
        (extractLoop filings.filings items oracle).2,
        attemptedYears filings.filings⟩ := by
  unfold get_company_financials
  dsimp only
  rw [hh]

/-- A present entry survives appending on the right. -/
theorem lookup_append_some {β : Type} (k : String) (s t : List (String × β))
    (w : β) (h : List.lookup k s = some w) :
    List.lookup k (s ++ t) = some w := by
  induction s with
  | nil => cases h
  | cons a s ih =>
    obtain ⟨a1, a2⟩ := a
    rw [List.cons_append]
    by_cases hk : k = a1
    · simp only [List.lookup,
        show (k == a1) = true from beq_iff_eq.mpr hk] at h ⊢
      exact h
    · simp only [List.lookup,
        show (k == a1) = false from beq_eq_false_iff_ne.mpr hk] at h ⊢
      exact ih h

/-- Appending a fresh entry makes it the lookup result. -/
theorem lookup_append_self {β : Type} (k : String) (s : List (String × β))
    (v : β) (h : List.lookup k s = none) :
    List.lookup k (s ++ [(k, v)]) = some v := by
  induction s with
  | nil => simp
  | cons a s ih =>
    obtain ⟨a1, a2⟩ := a
    rw [List.cons_append]
    by_cases hk : k = a1
    · simp only [List.lookup,
        show (k == a1) = true from beq_iff_eq.mpr hk] at h
      cases h
    · simp only [List.lookup,
        show (k == a1) = false from beq_eq_false_iff_ne.mpr hk] at h ⊢
      exact ih h

/-- A key that `lookup` misses fails the membership scan of `dictSet`. -/
theorem any_false_of_lookup_none {β : Type} (k : String)
    (s : List (String × β)) (h : List.lookup k s = none) :
    (s.any fun kv => kv.1 == k) = false := by
  induction s with
  | nil => rfl
  | cons a s ih =>
    obtain ⟨a1, a2⟩ := a
    by_cases hk : k = a1
    · simp only [List.lookup,
        show (k == a1) = true from beq_iff_eq.mpr hk] at h
      cases h
    · simp only [List.lookup,
        show (k == a1) = false from beq_eq_false_iff_ne.mpr hk] at h
      have h1 : (a1 == k) = false :=
        beq_eq_false_iff_ne.mpr fun he => hk he.symm
      simp [List.any_cons, h1, ih h]

/-- On a fresh key, Python dict assignment appends. -/
theorem dictSet_of_lookup_none (s : CacheStore) (k : String)
    (v : CorpusFinancials) (h : List.lookup k s = none) :
    dictSet s k v = s ++ [(k, v)] := by
  unfold dictSet
  rw [any_false_of_lookup_none k s h]
  simp

/-- Hex digests of 16-byte digests have 32 characters. -/
theorem flat_byteHex_length (bs : List Nat) :
    ((bs.map byteHex).flatten).length = 2 * bs.length := by
  induction bs with
  | nil => rfl
  | cons b t ih => simp [byteHex, ih]; omega

/-- The items fingerprint is a 32-character hex string. -/
theorem items_query_hash_length (items : List String) :
    (items_query_hash items).length = 32 := by
  unfold items_query_hash md5Hex
  rw [String.length_mk, flat_byteHex_length, md5Bytes_length]

/-- C3 counterexample: the claim states that a run with the cache flag
set to `False` also preserves previously persisted fingerprint entries.
With `cache=False` the code starts from an empty `save_dict`
(generate.py:99, 106) and overwrites the pickle with it (generate.py:135)
— after a `cache=False` run for a different query, the previously
persisted fingerprint `"k"` is gone from the written store. -/
theorem c3_counterexample :
    List.lookup "k"
        [("k", [(2018, [("net_sales", (some 1 : Option Int))])])] =
      some [(2018, [("net_sales", some 1)])] ∧
    ∀ store',
      (get_company_financials ⟨"T", []⟩ ["a"] false
          (some [("k", [(2018, [("net_sales", some 1)])])])
          (fun _ _ => OOut.ok [])).newDisk = some store' →
        List.lookup "k" store' = none := by
  refine ⟨rfl, ?_⟩
  intro store' hs
  have hrun : (get_company_financials ⟨"T", []⟩ ["a"] false
      (some [("k", [(2018, [("net_sales", some 1)])])])
      (fun _ _ => OOut.ok [])).newDisk =
      some [(items_query_hash ["a"], [])] := rfl
  rw [hrun] at hs
  cases hs
  have hne : ("k" : String) ≠ items_query_hash ["a"] := by
    intro he
    have := congrArg String.length he
    rw [items_query_hash_length] at this
    exact absurd this (by decide)
  simp only [List.lookup, beq_eq_false_iff_ne.mpr hne]

/-- C3 amended: with the cache flag set (`use_cache=True`), every
fingerprint entry present in the persisted store before the run is still
present with an equal value in the store after the run: a cache hit does
not write at all, and a miss appends the new fingerprint without
touching existing entries.  (With `cache=False` the persisted store is
replaced by a store holding only the new entry — see the
counterexample.) -/
theorem c3_theorem (filings : CompanyFilingTexts) (items : List String)
    (store : CacheStore) (oracle : Oracle) (k : String)
    (v : CorpusFinancials) (hv : List.lookup k store = some v) :
    ∃ store',
      (get_company_financials filings items true (some store) oracle).newDisk =
        some store' ∧ List.lookup k store' = some v := by
  cases hh : List.lookup (items_query_hash items) store with
  | some w =>
    refine ⟨store, ?_, hv⟩
    rw [gcf_hit filings items true (some store) oracle w (by simpa using hh)]
  | none =>
    refine ⟨dictSet store (items_query_hash items)
      (extractLoop filings.filings items oracle).1, ?_, ?_⟩
    · rw [gcf_miss filings items true (some store) oracle (by simpa using hh)]
      rfl
    · rw [dictSet_of_lookup_none _ _ _ hh]
      exact lookup_append_some _ _ _ _ hv

/-- Witness for C3 amended: a one-entry store and an unrelated query. -/
theorem c3_theorem_witness :
    ∃ store',
      (get_company_financials ⟨"T", []⟩ ["a"] true
          (some [("k", ([] : CorpusFinancials))])
          (fun _ _ => OOut.ok [])).newDisk = some store' ∧
        List.lookup "k" store' = some ([] : CorpusFinancials) :=
  c3_theorem ⟨"T", []⟩ ["a"] [("k", [])] (fun _ _ => OOut.ok []) "k" [] rfl

/-- C9: calling the orchestrator twice with `use_cache=True`, identical
corpus and items, threading the persisted store of the first run into
the second, is a round trip: the second run returns an equal
`CorpusFinancials` and makes zero oracle calls, whatever oracle
behaviour the second run would observe. -/
theorem c9_theorem (filings : CompanyFilingTexts) (items : List String)
    (disk : Option CacheStore) (oracle oracle₂ : Oracle) :
    (get_company_financials filings items true
        (get_company_financials filings items true disk oracle).newDisk
        oracle₂).result =
      (get_company_financials filings items true disk oracle).result ∧
    (get_company_financials filings items true
        (get_company_financials filings items true disk oracle).newDisk
        oracle₂).oracleCalls = 0 := by
  cases hh : List.lookup (items_query_hash items) (disk.getD []) with
  | some w =>
    have h1 := gcf_hit filings items true disk oracle w (by simpa using hh)
    rw [h1]
    have h2 := gcf_hit filings items true disk oracle₂ w (by simpa using hh)
    rw [h2]
    exact ⟨rfl, rfl⟩
  | none =>
    have h1 := gcf_miss filings items true disk oracle (by simpa using hh)
    rw [h1]
    dsimp only
    have hset : List.lookup (items_query_hash items)
        (dictSet (disk.getD []) (items_query_hash items)
          (extractLoop filings.filings items oracle).1) =
        some (extractLoop filings.filings items oracle).1 := by
      rw [dictSet_of_lookup_none _ _ _ hh]
      exact lookup_append_self _ _ _ hh
    have h2 := gcf_hit filings items true
      (some (dictSet (disk.getD []) (items_query_hash items)
        (extractLoop filings.filings items oracle).1))
      oracle₂ (extractLoop filings.filings items oracle).1
      (by simpa using hset)
    rw [show (if true = true then disk.getD [] else ([] : CacheStore)) =
      disk.getD [] from rfl]
    rw [h2]
    exact ⟨rfl, rfl⟩

/-! ## C1 — which years the loop visits -/

/-- `range(0, len(l), 2)` indexed into `l` is exactly every other element
of `l` starting from the first. -/
theorem stride2_filterMap {α : Type} : ∀ l : List α,
    (stride2 l.length).filterMap l.get? = everyOther l
  | [] => by simp [stride2, everyOther]
  | [a] => by
    simp only [stride2, everyOther, List.length_cons, List.length_nil]
    rfl
  | a :: b :: t => by
    have harith : ((a :: b :: t).length + 1) / 2 = (t.length + 1) / 2 + 1 := by
      simp only [List.length_cons]
      omega
    rw [everyOther, ← stride2_filterMap t]
    unfold stride2
    rw [harith, List.range_succ_eq_map]
    simp only [List.map_cons, List.filterMap_cons, List.map_map,
      List.filterMap_map]
    have hfun : ((a :: b :: t).get? ∘ (fun k => 2 * k) ∘ fun i => i + 1) =
        (t.get? ∘ fun k => 2 * k) := by
      funext x
      simp only [Function.comp]
      rw [show 2 * (x + 1) = 2 * x + 2 from by omega]
      rfl
    rw [hfun]
    rfl

/-- `everyOther l` is a sublist of `l`. -/
theorem everyOther_sublist {α : Type} : ∀ l : List α, (everyOther l).Sublist l
  | [] => List.Sublist.refl _
  | [a] => List.Sublist.refl _
  | a :: b :: t => by
    rw [everyOther]
    exact ((everyOther_sublist t).cons b).cons₂ a

/-- The loop fold appends the per-index contributions and sums the
per-index call counts. -/
theorem foldl_loopStep (pairs : List (Nat × FilingTextMap))
    (items : List String) (oracle : Oracle) :
    ∀ (idxs : List Nat) (acc : CorpusFinancials × Nat),
    idxs.foldl (loopStep pairs items oracle) acc =
      (acc.1 ++ idxs.filterMap (loopRes pairs items oracle),
        acc.2 + (idxs.map (loopCost pairs items oracle)).sum) := by
  intro idxs
  induction idxs with
  | nil => intro acc; simp
  | cons i t ih =>
    intro acc
    rw [List.foldl_cons, ih]
    simp only [List.filterMap_cons, List.map_cons, List.sum_cons]
    unfold loopStep loopRes loopCost
    cases hd : loopDoc pairs i with
    | none => simp
    | some yt =>
      obtain ⟨year, txt⟩ := yt
      dsimp only
      cases hg : get_document_financials oracle txt items with
      | ok fin =>
        dsimp only
        rw [Prod.mk.injEq]
        exact ⟨by simp, by omega⟩
      | error e =>
        dsimp only
        rw [Prod.mk.injEq]
        exact ⟨rfl, by omega⟩

/-- The loop result and call count, in closed form. -/
theorem extractLoop_eq (pairs : List (Nat × FilingTextMap))
    (items : List String) (oracle : Oracle) :
    extractLoop pairs items oracle =
      ((stride2 pairs.length).filterMap (loopRes pairs items oracle),
        ((stride2 pairs.length).map (loopCost pairs items oracle)).sum) := by
  unfold extractLoop
  rw [foldl_loopStep]
  simp

/-- A visited index reads the year at that position of the key list. -/
theorem loopDoc_year (pairs : List (Nat × FilingTextMap)) (i : Nat)
    (year : Nat) (txt : String) (h : loopDoc pairs i = some (year, txt)) :
    (pairs.map Prod.fst).get? i = some year ∧
      ∃ ftm, List.lookup year pairs = some ftm ∧
        List.lookup "financials" ftm = some txt := by
  unfold loopDoc at h
  cases hy : (pairs.map Prod.fst).get? i with
  | none => rw [hy] at h; cases h
  | some y =>
    rw [hy] at h
    dsimp only at h
    cases hl : List.lookup y pairs with
    | none => rw [hl] at h; cases h
    | some ftm =>
      rw [hl] at h
      dsimp only at h
      cases hf : List.lookup "financials" ftm with
      | none => rw [hf] at h; cases h
      | some txt2 =>
        rw [hf] at h
        dsimp only at h
        cases h
        exact ⟨rfl, ftm, hl, hf⟩

/-- A successful per-index contribution carries the year the loop read at
that index. -/
theorem loopRes_year (pairs : List (Nat × FilingTextMap))
    (items : List String) (oracle : Oracle) (i : Nat) (year : Nat)
    (fin : Financials)
    (h : loopRes pairs items oracle i = some (year, fin)) :
    (pairs.map Prod.fst).get? i = some year := by
  unfold loopRes at h
  cases hd : loopDoc pairs i with
  | none => rw [hd] at h; cases h
  | some yt =>
    obtain ⟨y, txt⟩ := yt
    rw [hd] at h
    dsimp only at h
    cases hg : get_document_financials oracle txt items with
    | ok fin2 =>
      rw [hg] at h
      dsimp only at h
      cases h
      exact (loopDoc_year pairs i _ _ hd).1
    | error e =>
      rw [hg] at h
      cases h

/-- The years of the loop result form a sublist of the visited years. -/
theorem result_years_sublist (pairs : List (Nat × FilingTextMap))
    (items : List String) (oracle : Oracle) : ∀ idxs : List Nat,
    ((idxs.filterMap (loopRes pairs items oracle)).map Prod.fst).Sublist
      (idxs.filterMap fun i => (pairs.map Prod.fst).get? i) := by
  intro idxs
  induction idxs with
  | nil => exact List.Sublist.refl _
  | cons i t ih =>
    simp only [List.filterMap_cons]
    cases hr : loopRes pairs items oracle i with
    | none =>
      cases hy : (pairs.map Prod.fst).get? i with
      | none => exact ih
      | some y => exact ih.cons y
    | some p =>
      obtain ⟨year, fin⟩ := p
      rw [loopRes_year pairs items oracle i year fin hr]
      simpa using ih.cons₂ year

/-- C1 counterexample: the claim states the sampled year set is the 1st,
3rd, 5th, ... of the corpus years sorted ascending, regardless of
insertion order.  The loop samples `years[0], years[2], ...` of
`list(filings.keys())`, i.e. of the dict's insertion order: for the
corpus inserted as 2019, 2018, 2020, 2021, 2022 the visited years are
`[2019, 2020, 2022]`, and 2018 — the earliest year, in the claimed
sampled set `{2018, 2020, 2022}` — is never attempted. -/
theorem c1_counterexample :
    (get_company_financials
        ⟨"T", [(2019, [("financials", "t")]), (2018, [("financials", "t")]),
          (2020, [("financials", "t")]), (2021, [("financials", "t")]),
          (2022, [("financials", "t")])]⟩
        ["a"] true none (fun _ _ => OOut.ok [])).attempted =
      [2019, 2020, 2022] ∧
    2018 ∉ (get_company_financials
        ⟨"T", [(2019, [("financials", "t")]), (2018, [("financials", "t")]),
          (2020, [("financials", "t")]), (2021, [("financials", "t")]),
          (2022, [("financials", "t")])]⟩
        ["a"] true none (fun _ _ => OOut.ok [])).attempted := by
  constructor
  · rfl
  · intro hmem
    rw [show (get_company_financials
        ⟨"T", [(2019, [("financials", "t")]), (2018, [("financials", "t")]),
          (2020, [("financials", "t")]), (2021, [("financials", "t")]),
          (2022, [("financials", "t")])]⟩
        ["a"] true none (fun _ _ => OOut.ok [])).attempted =
      [2019, 2020, 2022] from rfl] at hmem
    simp at hmem

/-- C1 amended: on a cache miss the loop visits the years at positions
0, 2, 4, ... of the corpus mapping's insertion order (not of the sorted
year list).  When the corpus happens to be inserted in ascending year
order — as in the claim's example — the visited years are every other
year starting from the earliest, they are visited in ascending order,
and the years of the returned result form a subsequence of the visited
years. -/
theorem c1_theorem (filings : CompanyFilingTexts) (items : List String)
    (cache : Bool) (disk : Option CacheStore) (oracle : Oracle)
    (hmiss : List.lookup (items_query_hash items)
      (if cache then disk.getD [] else []) = none)
    (hsorted : (filings.filings.map Prod.fst).Sorted (· < ·)) :
    (get_company_financials filings items cache disk oracle).attempted =
        everyOther (filings.filings.map Prod.fst) ∧
      (get_company_financials filings items cache disk oracle).attempted.Sorted
        (· < ·) ∧
      ((get_company_financials filings items cache disk oracle).result.map
          Prod.fst).Sublist
        (get_company_financials filings items cache disk oracle).attempted := by
  rw [gcf_miss filings items cache disk oracle hmiss]
  have hatt : attemptedYears filings.filings =
      everyOther (filings.filings.map Prod.fst) := by
    unfold attemptedYears
    rw [show filings.filings.length = (filings.filings.map Prod.fst).length
      from (List.length_map _ _).symm]
    exact stride2_filterMap (filings.filings.map Prod.fst)
  refine ⟨hatt, ?_, ?_⟩
  · rw [hatt]
    exact hsorted.sublist (everyOther_sublist _)
  · dsimp only
    rw [extractLoop_eq]
    dsimp only
    unfold attemptedYears
    exact result_years_sublist filings.filings items oracle _

/-- Witness for C1 amended: the ascending corpus 2018–2022 samples
exactly 2018, 2020, 2022. -/
theorem c1_theorem_witness :
    (get_company_financials
        ⟨"T", [(2018, [("financials", "t")]), (2019, [("financials", "t")]),
          (2020, [("financials", "t")]), (2021, [("financials", "t")]),
          (2022, [("financials", "t")])]⟩
        ["a"] true none (fun _ _ => OOut.ok [])).attempted =
        everyOther ([(2018, [("financials", "t")]),
          (2019, [("financials", "t")]), (2020, [("financials", "t")]),
          (2021, [("financials", "t")]),
          (2022, [("financials", "t")])].map Prod.fst) ∧
      (get_company_financials
        ⟨"T", [(2018, [("financials", "t")]), (2019, [("financials", "t")]),
          (2020, [("financials", "t")]), (2021, [("financials", "t")]),
          (2022, [("financials", "t")])]⟩
        ["a"] true none (fun _ _ => OOut.ok [])).attempted.Sorted (· < ·) ∧
      ((get_company_financials
        ⟨"T", [(2018, [("financials", "t")]), (2019, [("financials", "t")]),
          (2020, [("financials", "t")]), (2021, [("financials", "t")]),
          (2022, [("financials", "t")])]⟩
        ["a"] true none (fun _ _ => OOut.ok [])).result.map Prod.fst).Sublist
        (get_company_financials
        ⟨"T", [(2018, [("financials", "t")]), (2019, [("financials", "t")]),
          (2020, [("financials", "t")]), (2021, [("financials", "t")]),
          (2022, [("financials", "t")])]⟩
        ["a"] true none (fun _ _ => OOut.ok [])).attempted :=
  c1_theorem
    ⟨"T", [(2018, [("financials", "t")]), (2019, [("financials", "t")]),
      (2020, [("financials", "t")]), (2021, [("financials", "t")]),
      (2022, [("financials", "t")])]⟩
    ["a"] true none (fun _ _ => OOut.ok []) rfl (by decide)

/-! ## C7 — bounded retry and per-year failure isolation -/

/-- An oracle that fails transiently on every attempt: the retry loop of
generate.py:43-64 makes exactly 3 invocation attempts and re-raises. -/
theorem gdf_transient (oracle : Oracle) (document : String)
    (items : List String)
    (h : ∀ n, oracle (buildPrompt document items) n = OOut.transient) :
    get_document_financials oracle document items = .error .transient ∧
      gdfCalls oracle document items = 3 := by
  constructor
  · unfold get_document_financials firstResp
    rw [h 0, h 1, h 2]
  · unfold gdfCalls attemptsMade
    rw [h 0, h 1]
    rfl

/-- What a successful per-index contribution is made of. -/
theorem loopRes_spec (pairs : List (Nat × FilingTextMap))
    (items : List String) (oracle : Oracle) (i : Nat) (year : Nat)
    (fin : Financials)
    (h : loopRes pairs items oracle i = some (year, fin)) :
    ∃ txt, loopDoc pairs i = some (year, txt) ∧
      get_document_financials oracle txt items = .ok fin := by
  unfold loopRes at h
  cases hd : loopDoc pairs i with
  | none => rw [hd] at h; cases h
  | some yt =>
    obtain ⟨y, txt⟩ := yt
    rw [hd] at h
    dsimp only at h
    cases hg : get_document_financials oracle txt items with
    | ok fin2 =>
      rw [hg] at h
      dsimp only at h
      cases h
      exact ⟨txt, rfl, hg⟩
    | error e =>
      rw [hg] at h
      cases h

/-- Assembling a visited index's document from its parts. -/
theorem loopDoc_of (pairs : List (Nat × FilingTextMap)) (i : Nat)
    (year : Nat) (txt : String) (ftm : FilingTextMap)
    (hget : (pairs.map Prod.fst).get? i = some year)
    (hl : List.lookup year pairs = some ftm)
    (hf : List.lookup "financials" ftm = some txt) :
    loopDoc pairs i = some (year, txt) := by
  unfold loopDoc
  rw [hget]
  dsimp only
  rw [hl]
  dsimp only
  rw [hf]

/-- A visited year with a successful extraction contributes its entry. -/
theorem loopRes_of (pairs : List (Nat × FilingTextMap))
    (items : List String) (oracle : Oracle) (i : Nat) (year : Nat)
    (txt : String) (fin : Financials)
    (hd : loopDoc pairs i = some (year, txt))
    (hg : get_document_financials oracle txt items = .ok fin) :
    loopRes pairs items oracle i = some (year, fin) := by
  unfold loopRes
  rw [hd]
  dsimp only
  rw [hg]

/-- C7: when every invocation attempt for one year's document fails
transiently, `get_document_financials` makes exactly 3 attempts and
propagates the failure; the orchestrator (on a cache miss) then omits
that year from the result, and every other attempted year whose
extraction succeeds still appears in the returned result — the run
completes (the orchestrator is a total function). -/
theorem c7_theorem (filings : CompanyFilingTexts) (items : List String)
    (cache : Bool) (disk : Option CacheStore) (oracle : Oracle)
    (y : Nat) (ftm : FilingTextMap) (txt : String)
    (hmiss : List.lookup (items_query_hash items)
      (if cache then disk.getD [] else []) = none)
    (hy : List.lookup y filings.filings = some ftm)
    (hftm : List.lookup "financials" ftm = some txt)
    (htr : ∀ n, oracle (buildPrompt txt items) n = OOut.transient) :
    get_document_financials oracle txt items = .error .transient ∧
      gdfCalls oracle txt items = 3 ∧
      y ∉ ((get_company_financials filings items cache disk
        oracle).result.map Prod.fst) ∧
      ∀ y' ftm' txt' fin',
        List.lookup y' filings.filings = some ftm' →
        List.lookup "financials" ftm' = some txt' →
        get_document_financials oracle txt' items = .ok fin' →
        y' ∈ (get_company_financials filings items cache disk
          oracle).attempted →
        (y', fin') ∈ (get_company_financials filings items cache disk
          oracle).result := by
  obtain ⟨herr, hcalls⟩ := gdf_transient oracle txt items htr
  refine ⟨herr, hcalls, ?_, ?_⟩
  · rw [gcf_miss filings items cache disk oracle hmiss]
    dsimp only
    rw [extractLoop_eq]
    dsimp only
    intro hmem
    rw [List.mem_map] at hmem
    obtain ⟨p, hp, hpy⟩ := hmem
    rw [List.mem_filterMap] at hp
    obtain ⟨i, _, hres⟩ := hp
    obtain ⟨year, fin⟩ := p
    cases hpy
    obtain ⟨txt_i, hdoc, hok⟩ := loopRes_spec _ _ _ _ _ _ hres
    obtain ⟨_, ftm_i, hl_i, hf_i⟩ := loopDoc_year _ _ _ _ hdoc
    rw [hy] at hl_i
    cases hl_i
    rw [hftm] at hf_i
    cases hf_i
    rw [herr] at hok
    cases hok
  · intro y' ftm' txt' fin' hl' hf' hok' hmem
    rw [gcf_miss filings items cache disk oracle hmiss] at hmem ⊢
    dsimp only at hmem ⊢
    rw [extractLoop_eq]
    dsimp only
    unfold attemptedYears at hmem
    rw [List.mem_filterMap] at hmem
    obtain ⟨i, hi, hget⟩ := hmem
    exact List.mem_filterMap.mpr
      ⟨i, hi, loopRes_of _ _ _ _ _ _ _ (loopDoc_of _ _ _ _ _ hget hl' hf') hok'⟩

/-- Witness for C7: year 2020 fails all attempts and is omitted; 2018
succeeds and is returned. -/
theorem c7_theorem_witness :
    get_document_financials c7Oracle "c" ["a"] = .error .transient ∧
      gdfCalls c7Oracle "c" ["a"] = 3 ∧
      2020 ∉ ((get_company_financials c7Corpus ["a"] true none
        c7Oracle).result.map Prod.fst) ∧
      ∀ y' ftm' txt' fin',
        List.lookup y' c7Corpus.filings = some ftm' →
        List.lookup "financials" ftm' = some txt' →
        get_document_financials c7Oracle txt' ["a"] = .ok fin' →
        y' ∈ (get_company_financials c7Corpus ["a"] true none
          c7Oracle).attempted →
        (y', fin') ∈ (get_company_financials c7Corpus ["a"] true none
          c7Oracle).result :=
  c7_theorem c7Corpus ["a"] true none c7Oracle 2020
    [("financials", "c")] "c" rfl rfl rfl
    (fun _ => by unfold c7Oracle; rw [if_pos rfl])

/-! ## C5 / C10 — structure of `clean_text`

Shared lemmas about the line decomposition and the five passes. -/

/-- Splitting after a newline-free first line. -/
theorem splitNl_append (l : List Char) (hl : '\n' ∉ l) (rest : List Char) :
    splitNl (l ++ '\n' :: rest) = l :: splitNl rest := by
  induction l with
  | nil => simp [splitNl]
  | cons c t ih =>
    have hc : (c == '\n') = false :=
      beq_eq_false_iff_ne.mpr fun he => hl (by simp [he])
    have ht := ih fun hm => hl (List.mem_cons_of_mem c hm)
    simp only [List.cons_append, splitNl, hc, Bool.false_eq_true, if_false,
      List.append_eq]
    rw [ht]

/-- Splitting a newline-free text. -/
theorem splitNl_single (l : List Char) (hl : '\n' ∉ l) : splitNl l = [l] := by
  induction l with
  | nil => rfl
  | cons c t ih =>
    have hc : (c == '\n') = false :=
      beq_eq_false_iff_ne.mpr fun he => hl (by simp [he])
    have ht := ih fun hm => hl (List.mem_cons_of_mem c hm)
    simp only [splitNl, hc, Bool.false_eq_true, if_false]
    rw [ht]

/-- `splitNl` inverts `joinNl` on non-empty newline-free line lists. -/
theorem splitNl_joinNl : ∀ (R : List (List Char)), R ≠ [] →
    (∀ l ∈ R, '\n' ∉ l) → splitNl (joinNl R) = R := by
  intro R
  induction R with
  | nil => intro h; cases h rfl
  | cons l ls ih =>
    intro _ hnl
    cases ls with
    | nil => exact splitNl_single l (hnl l (by simp))
    | cons l2 ls2 =>
      rw [show joinNl (l :: l2 :: ls2) = l ++ '\n' :: joinNl (l2 :: ls2)
        from rfl]
      rw [splitNl_append l (hnl l (by simp))]
      rw [ih (by simp) fun m hm => hnl m (List.mem_cons_of_mem l hm)]

/-- The three shapes of `splitNl` on a cons. -/
theorem splitNl_cons_nl (r : List Char) :
    splitNl ('\n' :: r) = [] :: splitNl r := by
  simp [splitNl]

theorem splitNl_cons_other (c : Char) (r : List Char) (hc : c ≠ '\n')
    (t : List Char) (ts : List (List Char)) (h : splitNl r = t :: ts) :
    splitNl (c :: r) = (c :: t) :: ts := by
  have hcb : (c == '\n') = false := beq_eq_false_iff_ne.mpr hc
  simp only [splitNl, hcb, Bool.false_eq_true, if_false]
  rw [h]

/-- `splitNl` never returns the empty list. -/
theorem splitNl_ne_nil : ∀ x : List Char, splitNl x ≠ [] := by
  intro x
  induction x with
  | nil => simp [splitNl]
  | cons c r ih =>
    by_cases hc : c = '\n'
    · subst hc; rw [splitNl_cons_nl]; simp
    · cases hsp : splitNl r with
      | nil => exact absurd hsp ih
      | cons t ts => rw [splitNl_cons_other c r hc t ts hsp]; simp

/-- Lines produced by `splitNl` contain no newline. -/
theorem splitNl_no_nl : ∀ (x : List Char), ∀ l ∈ splitNl x, '\n' ∉ l := by
  intro x
  induction x with
  | nil =>
    intro l hl
    rw [show splitNl [] = [[]] from rfl, List.mem_singleton] at hl
    subst hl
    simp
  | cons c r ih =>
    intro l hl
    by_cases hc : c = '\n'
    · subst hc
      rw [splitNl_cons_nl] at hl
      rcases List.mem_cons.mp hl with rfl | hl
      · simp
      · exact ih l hl
    · cases hsp : splitNl r with
      | nil => exact absurd hsp (splitNl_ne_nil r)
      | cons t ts =>
        rw [splitNl_cons_other c r hc t ts hsp] at hl
        rcases List.mem_cons.mp hl with rfl | hl
        · intro hm
          rcases List.mem_cons.mp hm with h1 | h1
          · exact hc h1.symm
          · exact ih t (by rw [hsp]; exact List.mem_cons_self t ts) h1
        · exact ih l (by rw [hsp]; exact List.mem_cons_of_mem t hl)

/-- Characters of `splitNl` lines come from the text. -/
theorem splitNl_chars : ∀ (x : List Char), ∀ l ∈ splitNl x, ∀ c ∈ l, c ∈ x := by
  intro x
  induction x with
  | nil =>
    intro l hl
    rw [show splitNl [] = [[]] from rfl, List.mem_singleton] at hl
    subst hl
    intro c hc
    cases hc
  | cons d r ih =>
    intro l hl c hc
    by_cases hd : d = '\n'
    · subst hd
      rw [splitNl_cons_nl] at hl
      rcases List.mem_cons.mp hl with rfl | hl
      · cases hc
      · exact List.mem_cons_of_mem _ (ih l hl c hc)
    · cases hsp : splitNl r with
      | nil => exact absurd hsp (splitNl_ne_nil r)
      | cons t ts =>
        rw [splitNl_cons_other d r hd t ts hsp] at hl
        rcases List.mem_cons.mp hl with rfl | hl
        · rcases List.mem_cons.mp hc with rfl | h1
          · exact List.mem_cons_self _ _
          · exact List.mem_cons_of_mem _
              (ih t (by rw [hsp]; exact List.mem_cons_self t ts) c h1)
        · exact List.mem_cons_of_mem _
            (ih l (by rw [hsp]; exact List.mem_cons_of_mem t hl) c hc)

/-- The noise predicates on the empty line body. -/
theorem linePartItem_nil : linePartItem [] = false := rfl

theorem linePageNum_nil : linePageNum [] = false := rfl

theorem lineFormFooter_nil : lineFormFooter [] = false := rfl

theorem linePageTag_nil : linePageTag [] = false := rfl

theorem lineBlank_nil : lineBlank [] = true := rfl

theorem termJoin_cons (l : List Char) (M : List (List Char)) :
    termJoin (l :: M) = l ++ '\n' :: termJoin M := by
  simp [termJoin]

theorem lineWs_eq_lineBlank (l : List Char) (h : LineOk l = true) :
    lineWs l = lineBlank l := by
  induction l with
  | nil => rfl
  | cons c r ih =>
    simp only [LineOk, List.all_cons, Bool.and_eq_true] at h
    obtain ⟨hc, hr⟩ := h
    have ih2 := ih hr
    simp only [Bool.not_eq_true', Bool.or_eq_false_iff] at hc
    obtain ⟨⟨⟨hn, hcr⟩, hb⟩, hf⟩ := hc
    simp only [lineWs, lineBlank, List.all_cons] at ih2 ⊢
    rw [show isWsNoNl c = isTabSp c from by
      simp [isWsNoNl, isHSpace, isTabSp, hcr, hb, hf, Bool.or_comm], ih2]

theorem LineOk_no_cr (l : List Char) (h : LineOk l = true) : '\r' ∉ l := by
  intro hm
  have := List.all_eq_true.mp h _ hm
  simp at this

theorem LineOk_no_nl (l : List Char) (h : LineOk l = true) : '\n' ∉ l := by
  intro hm
  have := List.all_eq_true.mp h _ hm
  simp at this

/-- Without a CR the blank-line repetitions consume nothing in-line. -/
theorem stripReps_no_cr (l : List Char) (h : '\r' ∉ l) : stripReps l = l := by
  have hmem : '\r' ∉ l.takeWhile fun c => isTabSp c || c == '\r' :=
    fun hm => h ((List.takeWhile_sublist _).subset hm)
  unfold stripReps
  dsimp only
  rw [show ((l.takeWhile fun c => isTabSp c || c == '\r').contains '\r') = false from by
    by_contra hcc
    rw [Bool.not_eq_false] at hcc
    exact hmem (by simpa using hcc)]
  simp

/-- One step of pass 1 outside a whitespace tail. -/
theorem aux_false_cons (l : List Char) (ls : List (List Char)) :
    passPartItemAux false (l :: ls) =
      if linePartItem l then [] :: passPartItemAux true ls
      else l :: passPartItemAux false ls := by
  simp [passPartItemAux]

theorem aux_true_ws (l : List Char) (ls : List (List Char))
    (h : lineWs l = true) :
    passPartItemAux true (l :: ls) = passPartItemAux true ls := by
  simp [passPartItemAux, h]

theorem aux_true_not_ws (l : List Char) (ls : List (List Char))
    (h : lineWs l = false) :
    passPartItemAux true (l :: ls) = passPartItemAux false (l :: ls) := by
  simp [passPartItemAux, h]

/-- Inside a whitespace tail, pass 1 swallows whitespace lines up to the
first non-whitespace line and then proceeds as from outside. -/
theorem aux_true_drop : ∀ M : List (List Char),
    passPartItemAux true (M ++ [[]]) =
      if (M.dropWhile lineWs).isEmpty then []
      else passPartItemAux false (M.dropWhile lineWs ++ [[]]) := by
  intro M
  induction M with
  | nil => rfl
  | cons l M ih =>
    by_cases hw : lineWs l = true
    · rw [List.cons_append, aux_true_ws l _ hw, ih, List.dropWhile_cons,
        if_pos hw]
    · have hw2 : lineWs l = false := by simpa using hw
      rw [List.cons_append, aux_true_not_ws l _ hw2]
      simp only [List.dropWhile_cons, hw2, Bool.false_eq_true, if_false]
      rw [if_neg (by simp)]
      rfl

theorem aux_false_ne_nil (l : List Char) (ls : List (List Char)) :
    passPartItemAux false (l :: ls) ≠ [] := by
  rw [aux_false_cons]
  split <;> simp

theorem aux_false_ne_nil2 (L : List (List Char)) (h : L ≠ []) :
    passPartItemAux false L ≠ [] := by
  obtain ⟨y, ys, rfl⟩ := List.exists_cons_of_ne_nil h
  exact aux_false_ne_nil y ys

/-- Lines emitted by pass 1 are empty or non-matching input lines. -/
theorem aux_mem : ∀ (sw : Bool) (L : List (List Char)),
    ∀ m ∈ passPartItemAux sw L, m = [] ∨ (m ∈ L ∧ linePartItem m = false) := by
  intro sw L
  induction L generalizing sw with
  | nil => intro m hm; simp [passPartItemAux] at hm
  | cons l ls ih =>
    intro m hm
    simp only [passPartItemAux] at hm
    by_cases h1 : (sw && lineWs l) = true
    · rw [if_pos h1] at hm
      rcases ih true m hm with h | ⟨h, h2⟩
      · exact Or.inl h
      · exact Or.inr ⟨List.mem_cons_of_mem _ h, h2⟩
    · rw [if_neg h1] at hm
      by_cases h2 : linePartItem l = true
      · rw [if_pos h2] at hm
        rcases List.mem_cons.mp hm with rfl | hm2
        · exact Or.inl rfl
        · rcases ih true m hm2 with h | ⟨h3, h4⟩
          · exact Or.inl h
          · exact Or.inr ⟨List.mem_cons_of_mem _ h3, h4⟩
      · rw [if_neg h2] at hm
        rcases List.mem_cons.mp hm with rfl | hm2
        · exact Or.inr ⟨List.mem_cons_self _ _, by simpa using h2⟩
        · rcases ih false m hm2 with h | ⟨h3, h4⟩
          · exact Or.inl h
          · exact Or.inr ⟨List.mem_cons_of_mem _ h3, h4⟩

/-- Pass 1 is the identity on texts with no matching line. -/
theorem aux_false_id : ∀ L : List (List Char),
    (∀ l ∈ L, linePartItem l = false) → passPartItemAux false L = L := by
  intro L
  induction L with
  | nil => intro _; rfl
  | cons l ls ih =>
    intro h
    rw [aux_false_cons, if_neg (by simp [h l (List.mem_cons_self _ _)]),
      ih fun x hx => h x (List.mem_cons_of_mem _ hx)]

theorem passLine_cons (p : List Char → Bool) (l : List Char)
    (ls : List (List Char)) :
    passLine p (l :: ls) = (if p l then [] else l) :: passLine p ls := rfl

theorem passLine_ne_nil (p : List Char → Bool) (L : List (List Char))
    (h : L ≠ []) : passLine p L ≠ [] := by
  cases L with
  | nil => exact absurd rfl h
  | cons l ls => simp [passLine]

theorem passLine_mem (p : List Char → Bool) (L : List (List Char)) :
    ∀ m ∈ passLine p L, m = [] ∨ (m ∈ L ∧ p m = false) := by
  intro m hm
  rcases List.mem_map.mp hm with ⟨l, hl, he⟩
  by_cases hp : p l = true
  · left; rw [← he, if_pos hp]
  · right
    rw [← he, if_neg hp]
    exact ⟨hl, by simpa using hp⟩

theorem passLine_id (p : List Char → Bool) : ∀ L : List (List Char),
    (∀ l ∈ L, p l = false) → passLine p L = L := by
  intro L
  induction L with
  | nil => intro _; rfl
  | cons l ls ih =>
    intro h
    rw [passLine_cons, if_neg (by simp [h l (List.mem_cons_self _ _)]),
      ih fun x hx => h x (List.mem_cons_of_mem _ hx)]

/-- Pass 5 on a CR-free blank line followed by further lines. -/
theorem passBlank_cons_of_blank (l l2 : List Char) (ls : List (List Char))
    (hcr : '\r' ∉ l) (hb : lineBlank l = true) :
    passBlank (l :: l2 :: ls) = passBlank (l2 :: ls) := by
  simp only [passBlank]
  rw [stripReps_no_cr l hcr, if_pos hb]

/-- Pass 5 on a CR-free non-blank line. -/
theorem passBlank_cons_of_not_blank (l : List Char) (ls : List (List Char))
    (hcr : '\r' ∉ l) (hb : lineBlank l = false) :
    passBlank (l :: ls) = l :: passBlank ls := by
  simp only [passBlank]
  rw [stripReps_no_cr l hcr, if_neg (by simp [hb])]

/-- Pass 5 on a CR-free final line. -/
theorem passBlank_single (l : List Char) (hcr : '\r' ∉ l) :
    passBlank [l] = [l] := by
  simp only [passBlank]
  rw [stripReps_no_cr l hcr]
  split <;> rfl

/-- Pass 5 drops an empty line followed by further lines. -/
theorem passBlank_cons_nil (Y : List (List Char)) (h : Y ≠ []) :
    passBlank ([] :: Y) = passBlank Y := by
  obtain ⟨y, ys, rfl⟩ := List.exists_cons_of_ne_nil h
  exact passBlank_cons_of_blank [] y ys (by simp) rfl

theorem passBlank_ne_nil : ∀ L : List (List Char), L ≠ [] →
    passBlank L ≠ [] := by
  intro L
  induction L with
  | nil => intro h; exact absurd rfl h
  | cons l ls ih =>
    intro _
    simp only [passBlank]
    split
    · cases ls with
      | nil => simp
      | cons l2 ls2 => exact ih (by simp)
    · simp

/-- With CR-free lines, pass 5 only removes lines. -/
theorem passBlank_mem : ∀ L : List (List Char), (∀ l ∈ L, '\r' ∉ l) →
    ∀ m ∈ passBlank L, m ∈ L := by
  intro L
  induction L with
  | nil => intro _ m hm; simpa [passBlank] using hm
  | cons l ls ih =>
    intro h m hm
    have hcr := h l (List.mem_cons_self _ _)
    by_cases hb : lineBlank l = true
    · cases ls with
      | nil =>
        rw [passBlank_single l hcr] at hm
        exact hm
      | cons l2 ls2 =>
        rw [passBlank_cons_of_blank l l2 ls2 hcr hb] at hm
        exact List.mem_cons_of_mem _
          (ih (fun x hx => h x (List.mem_cons_of_mem _ hx)) m hm)
    · have hb2 : lineBlank l = false := by simpa using hb
      rw [passBlank_cons_of_not_blank l ls hcr hb2] at hm
      rcases List.mem_cons.mp hm with rfl | hm2
      · exact List.mem_cons_self _ _
      · exact List.mem_cons_of_mem _
          (ih (fun x hx => h x (List.mem_cons_of_mem _ hx)) m hm2)

theorem NBT_tail (l : List Char) (ls : List (List Char)) (h : NBT (l :: ls)) :
    NBT ls := by
  cases ls with
  | nil => trivial
  | cons l2 ls2 => exact h.2

theorem passBlank_NBT : ∀ L : List (List Char), (∀ l ∈ L, '\r' ∉ l) →
    NBT (passBlank L) := by
  intro L
  induction L with
  | nil => intro _; trivial
  | cons l ls ih =>
    intro h
    have hcr := h l (List.mem_cons_self _ _)
    by_cases hb : lineBlank l = true
    · cases ls with
      | nil =>
        rw [passBlank_single l hcr]
        trivial
      | cons l2 ls2 =>
        rw [passBlank_cons_of_blank l l2 ls2 hcr hb]
        exact ih fun x hx => h x (List.mem_cons_of_mem _ hx)
    · have hb2 : lineBlank l = false := by simpa using hb
      rw [passBlank_cons_of_not_blank l ls hcr hb2]
      have htail := ih fun x hx => h x (List.mem_cons_of_mem _ hx)
      cases hpb : passBlank ls with
      | nil => trivial
      | cons m ms => exact ⟨hb2, hpb ▸ htail⟩

/-- Pass 5 is the identity on CR-free texts with no removable blank line. -/
theorem passBlank_id : ∀ L : List (List Char), (∀ l ∈ L, '\r' ∉ l) →
    NBT L → passBlank L = L := by
  intro L
  induction L with
  | nil => intro _ _; rfl
  | cons l ls ih =>
    intro h hn
    have hcr := h l (List.mem_cons_self _ _)
    cases ls with
    | nil => exact passBlank_single l hcr
    | cons l2 ls2 =>
      rw [passBlank_cons_of_not_blank l _ hcr hn.1,
        ih (fun x hx => h x (List.mem_cons_of_mem _ hx)) hn.2]

theorem passLines3_cons_nil (X : List (List Char)) :
    passLines3 ([] :: X) = [] :: passLines3 X := rfl

theorem passLines3_cons (l : List Char) (ls : List (List Char)) :
    passLines3 (l :: ls) =
      (if linePageNum l then [] else if lineFormFooter l then []
        else if linePageTag l then [] else l) :: passLines3 ls := by
  by_cases h2 : linePageNum l = true
  · simp [passLines3, passLine, h2, lineFormFooter_nil, linePageTag_nil]
  · have h2f : linePageNum l = false := by simpa using h2
    by_cases h3 : lineFormFooter l = true
    · simp [passLines3, passLine, h2f, h3, linePageTag_nil]
    · have h3f : lineFormFooter l = false := by simpa using h3
      by_cases h4 : linePageTag l = true
      · simp [passLines3, passLine, h2f, h3f, h4]
      · have h4f : linePageTag l = false := by simpa using h4
        simp [passLines3, passLine, h2f, h3f, h4f]

theorem passLines3_ne_nil (L : List (List Char)) (h : L ≠ []) :
    passLines3 L ≠ [] :=
  passLine_ne_nil _ _ (passLine_ne_nil _ _ (passLine_ne_nil _ _ h))

theorem passLines3_mem (L : List (List Char)) : ∀ m ∈ passLines3 L,
    m = [] ∨ (m ∈ L ∧ linePageNum m = false ∧ lineFormFooter m = false ∧
      linePageTag m = false) := by
  intro m hm
  rcases passLine_mem _ _ m hm with rfl | ⟨hm3, hp4⟩
  · exact Or.inl rfl
  rcases passLine_mem _ _ m hm3 with rfl | ⟨hm2, hp3⟩
  · exact Or.inl rfl
  rcases passLine_mem _ _ m hm2 with rfl | ⟨hmL, hp2⟩
  · exact Or.inl rfl
  exact Or.inr ⟨hmL, hp2, hp3, hp4⟩

theorem passLines3_id (L : List (List Char))
    (h : ∀ l ∈ L, linePageNum l = false ∧ lineFormFooter l = false ∧
      linePageTag l = false) : passLines3 L = L := by
  unfold passLines3
  rw [passLine_id _ _ fun l hl => (h l hl).1,
    passLine_id _ _ fun l hl => (h l hl).2.1,
    passLine_id _ _ fun l hl => (h l hl).2.2]

/-- Splitting a newline-terminated text: the lines plus a final empty body. -/
theorem termJoin_splitNl (L : List (List Char)) (h : ∀ l ∈ L, '\n' ∉ l) :
    splitNl (termJoin L) = L ++ [[]] := by
  induction L with
  | nil => rfl
  | cons l ls ih =>
    rw [termJoin_cons, splitNl_append l (h l (List.mem_cons_self _ _)),
      ih fun x hx => h x (List.mem_cons_of_mem _ hx), List.cons_append]

/-- Joining lines with a final empty body terminates every line. -/
theorem joinNl_termJoin : ∀ M : List (List Char),
    joinNl (M ++ [[]]) = termJoin M := by
  intro M
  induction M with
  | nil => rfl
  | cons l M ih =>
    obtain ⟨y, ys, hy⟩ : ∃ y ys, M ++ [[]] = y :: ys := by
      cases M with
      | nil => exact ⟨[], [], rfl⟩
      | cons a b => exact ⟨a, b ++ [[]], List.cons_append a b [[]]⟩
    rw [List.cons_append, hy,
      show joinNl (l :: y :: ys) = l ++ '\n' :: joinNl (y :: ys) from rfl,
      ← hy, ih, termJoin_cons]

/-- Blank lines under `LineOk` keep nothing. -/
theorem keepLine_false_of_ws (l : List Char) (hOk : LineOk l = true)
    (hw : lineWs l = true) : keepLine l = false := by
  have hb : lineBlank l = true := (lineWs_eq_lineBlank l hOk) ▸ hw
  simp [keepLine, hb]

/-- Dropping a whitespace prefix does not change the kept lines. -/
theorem filter_keepLine_dropWhile : ∀ ls : List (List Char),
    (∀ x ∈ ls, LineOk x = true) →
    (ls.dropWhile lineWs).filter keepLine = ls.filter keepLine := by
  intro ls
  induction ls with
  | nil => intro _; rfl
  | cons l ls ih =>
    intro h
    by_cases hw : lineWs l = true
    · rw [List.dropWhile_cons, if_pos hw,
        ih fun x hx => h x (List.mem_cons_of_mem _ hx), List.filter_cons,
        if_neg (by simp [keepLine_false_of_ws l (h l (List.mem_cons_self _ _)) hw])]
    · rw [List.dropWhile_cons, if_neg hw]

/-- The common tail step of the chain lemma: an intermediate line list of
the form `aux false (M ++ [[]])` run through passes 2-5. -/
theorem cleanChainFilter : ∀ (n : Nat) (L : List (List Char)), L.length ≤ n →
    (∀ l ∈ L, LineOk l = true) →
    passBlank (passLines3 (passPartItemAux false (L ++ [[]]))) =
      L.filter keepLine ++ [[]] := by
  intro n
  induction n with
  | zero =>
    intro L hL _
    have hnil : L = [] := List.length_eq_zero.mp (Nat.le_zero.mp hL)
    subst hnil
    rfl
  | succ n ih =>
    intro L hL hOk
    cases L with
    | nil => rfl
    | cons l ls =>
      have hOkl := hOk l (List.mem_cons_self _ _)
      have hOkls : ∀ x ∈ ls, LineOk x = true :=
        fun x hx => hOk x (List.mem_cons_of_mem _ hx)
      have hcr : '\r' ∉ l := LineOk_no_cr l hOkl
      have hlen : ls.length ≤ n := by
        simp only [List.length_cons] at hL
        omega
      rw [List.cons_append, aux_false_cons]
      by_cases h1 : linePartItem l = true
      · rw [if_pos h1, List.filter_cons, if_neg (by simp [keepLine, h1]),
          passLines3_cons_nil, aux_true_drop ls]
        by_cases hdrop : (ls.dropWhile lineWs).isEmpty = true
        · rw [if_pos hdrop]
          have hnil : ls.dropWhile lineWs = [] := by
            cases hd : ls.dropWhile lineWs with
            | nil => rfl
            | cons a b => rw [hd] at hdrop; simp [List.isEmpty] at hdrop
          have hall : ∀ x ∈ ls, lineWs x = true :=
            fun x hx => List.dropWhile_eq_nil_iff.mp hnil x hx
          have hfilter : ls.filter keepLine = [] := by
            rw [List.filter_eq_nil]
            intro x hx
            simp [keepLine_false_of_ws x (hOkls x hx) (hall x hx)]
          rw [hfilter]
          rfl
        · rw [if_neg hdrop]
          obtain ⟨m, ms, hms⟩ : ∃ m ms, ls.dropWhile lineWs = m :: ms := by
            cases hd : ls.dropWhile lineWs with
            | nil => rw [hd] at hdrop; exact absurd rfl hdrop
            | cons a b => exact ⟨a, b, rfl⟩
          have hsub : ∀ x ∈ m :: ms, LineOk x = true := by
            intro x hx
            exact hOkls x ((List.dropWhile_sublist _).subset (hms ▸ hx))
          have hlen2 : (m :: ms).length ≤ n := by
            have h1l : (ls.dropWhile lineWs).length ≤ ls.length :=
              (List.dropWhile_sublist _).length_le
            rw [hms] at h1l
            simp only [List.length_cons] at h1l ⊢
            omega
          rw [hms, passBlank_cons_nil _
            (passLines3_ne_nil _ (aux_false_ne_nil2 _ (by simp))),
            ih (m :: ms) hlen2 hsub, ← hms, filter_keepLine_dropWhile ls hOkls]
      · have h1f : linePartItem l = false := by simpa using h1
        rw [if_neg h1, passLines3_cons]
        have hYne : passLines3 (passPartItemAux false (ls ++ [[]])) ≠ [] :=
          passLines3_ne_nil _ (aux_false_ne_nil2 _ (by simp))
        by_cases h2 : linePageNum l = true
        · rw [if_pos h2, passBlank_cons_nil _ hYne, ih ls hlen hOkls,
            List.filter_cons, if_neg (by simp [keepLine, h2])]
        · have h2f : linePageNum l = false := by simpa using h2
          rw [if_neg h2]
          by_cases h3 : lineFormFooter l = true
          · rw [if_pos h3, passBlank_cons_nil _ hYne, ih ls hlen hOkls,
              List.filter_cons, if_neg (by simp [keepLine, h3])]
          · have h3f : lineFormFooter l = false := by simpa using h3
            rw [if_neg h3]
            by_cases h4 : linePageTag l = true
            · rw [if_pos h4, passBlank_cons_nil _ hYne, ih ls hlen hOkls,
                List.filter_cons, if_neg (by simp [keepLine, h4])]
            · have h4f : linePageTag l = false := by simpa using h4
              rw [if_neg h4]
              by_cases hb : lineBlank l = true
              · obtain ⟨y, ys, hy⟩ := List.exists_cons_of_ne_nil hYne
                rw [hy, passBlank_cons_of_blank l y ys hcr hb, ← hy,
                  ih ls hlen hOkls, List.filter_cons,
                  if_neg (by simp [keepLine, hb])]
              · have hbf : lineBlank l = false := by simpa using hb
                rw [passBlank_cons_of_not_blank l _ hcr hbf,
                  ih ls hlen hOkls, List.filter_cons,
                  if_pos (by simp [keepLine, h1f, h2f, h3f, h4f, hbf]),
                  List.cons_append]

/-- C5 (amended): on a newline-terminated text whose line bodies are free
of CR/VT/FF, `clean_text` returns exactly the newline-joined subsequence
of lines matching none of the four noise patterns and not blank - blank
lines are removed everywhere, not only at the very start, and surviving
lines are unaltered. -/
theorem c5_theorem (L : List (List Char)) (h : ∀ l ∈ L, LineOk l = true) :
    clean_text (termJoin L) = termJoin (L.filter keepLine) := by
  have hnl : ∀ l ∈ L, '\n' ∉ l := fun l hl => LineOk_no_nl l (h l hl)
  show joinNl (passBlank (passLines3 (passPartItemAux false
    (splitNl (termJoin L))))) = termJoin (L.filter keepLine)
  rw [termJoin_splitNl L hnl, cleanChainFilter L.length L (le_refl _) h,
    joinNl_termJoin]

theorem c5_theorem_witness :
    (∀ l ∈ [['I', 'T', 'E', 'M', ' ', '2'], [' '], ['a', 'b']],
      LineOk l = true) ∧
    clean_text (termJoin [['I', 'T', 'E', 'M', ' ', '2'], [' '], ['a', 'b']]) =
      termJoin ([['I', 'T', 'E', 'M', ' ', '2'], [' '], ['a', 'b']].filter
        keepLine) :=
  ⟨by decide, c5_theorem [['I', 'T', 'E', 'M', ' ', '2'], [' '], ['a', 'b']]
    (by decide)⟩

/-- A line list that is a fixed point of all five passes is a fixed point
of `clean_text` after joining. -/
theorem clean_text_fixed (C : List (List Char)) (hne : C ≠ [])
    (hnl : ∀ m ∈ C, '\n' ∉ m) (hcr : ∀ m ∈ C, '\r' ∉ m) (hnbt : NBT C)
    (hp : ∀ m ∈ C, linePartItem m = false ∧ linePageNum m = false ∧
      lineFormFooter m = false ∧ linePageTag m = false) :
    clean_text (joinNl C) = joinNl C := by
  show joinNl (passBlank (passLines3 (passPartItemAux false
    (splitNl (joinNl C))))) = joinNl C
  rw [splitNl_joinNl C hne hnl, aux_false_id C fun m hm => (hp m hm).1,
    passLines3_id C fun m hm =>
      ⟨(hp m hm).2.1, (hp m hm).2.2.1, (hp m hm).2.2.2⟩,
    passBlank_id C hcr hnbt]

/-- C10 (amended): `clean_text` is idempotent on every CR-free input. -/
theorem c10_theorem (x : List Char) (h : '\r' ∉ x) :
    clean_text (clean_text x) = clean_text x := by
  have hRnl := splitNl_no_nl x
  have hRcr : ∀ l ∈ splitNl x, '\r' ∉ l :=
    fun l hl hc => h (splitNl_chars x l hl '\r' hc)
  have hYmem : ∀ m ∈ passLines3 (passPartItemAux false (splitNl x)),
      m = [] ∨ (m ∈ splitNl x ∧ linePartItem m = false ∧
        linePageNum m = false ∧ lineFormFooter m = false ∧
        linePageTag m = false) := by
    intro m hm
    rcases passLines3_mem _ m hm with rfl | ⟨hmA, h2, h3, h4⟩
    · exact Or.inl rfl
    · rcases aux_mem false _ m hmA with h0 | ⟨hmR, h1p⟩
      · exact Or.inl h0
      · exact Or.inr ⟨hmR, h1p, h2, h3, h4⟩
  have hYcr : ∀ m ∈ passLines3 (passPartItemAux false (splitNl x)),
      '\r' ∉ m := by
    intro m hm
    rcases hYmem m hm with rfl | ⟨hmR, _⟩
    · simp
    · exact hRcr m hmR
  show clean_text (joinNl (passBlank (passLines3 (passPartItemAux false
    (splitNl x))))) = joinNl (passBlank (passLines3 (passPartItemAux false
    (splitNl x))))
  apply clean_text_fixed
  · exact passBlank_ne_nil _
      (passLines3_ne_nil _ (aux_false_ne_nil2 _ (splitNl_ne_nil x)))
  · intro m hm
    rcases hYmem m (passBlank_mem _ hYcr m hm) with rfl | ⟨hmR, _⟩
    · simp
    · exact hRnl m hmR
  · exact fun m hm => hYcr m (passBlank_mem _ hYcr m hm)
  · exact passBlank_NBT _ hYcr
  · intro m hm
    rcases hYmem m (passBlank_mem _ hYcr m hm) with rfl | ⟨_, h1, h2, h3, h4⟩
    · exact ⟨linePartItem_nil, linePageNum_nil, lineFormFooter_nil,
        linePageTag_nil⟩
    · exact ⟨h1, h2, h3, h4⟩

theorem c10_theorem_witness :
    '\r' ∉ ['a', '\n', 'I', 'T', 'E', 'M', ' ', '2', '\n', '\n', ' ', 'b'] ∧
    clean_text (clean_text
      ['a', '\n', 'I', 'T', 'E', 'M', ' ', '2', '\n', '\n', ' ', 'b']) =
      clean_text ['a', '\n', 'I', 'T', 'E', 'M', ' ', '2', '\n', '\n', ' ', 'b'] :=
  ⟨by decide, c10_theorem
    ['a', '\n', 'I', 'T', 'E', 'M', ' ', '2', '\n', '\n', ' ', 'b'] (by decide)⟩
